import Mathlib

namespace PrepareEpub

/-!
Verification development for `prepare_epub.py`, a script that normalizes and
packages a directory of XHTML/CSS/image/font assets into an EPUB 3 archive.

Strings of the Python source are modelled as `List Char`; `str.lower` is
modelled on the ASCII range (the filenames and entity tables the script works
with are ASCII).  Each definition is a direct shallow embedding of the Python
function named in its doc comment.
-/

/-! ## Filename normalizer (`normalize_filename`, prepare_epub.py lines 82-93) -/

/-- ASCII case-lowering of one character, as Python's `str.lower` acts on the
ASCII letters appearing in the script's inputs. -/
def lowerChar (c : Char) : Char :=
  if 65 ≤ c.toNat ∧ c.toNat ≤ 90 then Char.ofNat (c.toNat + 32) else c

/-- `s.lower()` on a list of characters. -/
def lowerStr (s : List Char) : List Char := s.map lowerChar

/-- `s.replace(' ', '-')`. -/
def spaceToHyphen (s : List Char) : List Char :=
  s.map (fun c => if c = ' ' then '-' else c)

/-- One application of `re.sub(r'[-_]?final$', '', s)`: the regex is anchored
at the end, so it deletes a single trailing `final` token, greedily taking a
preceding `-` or `_` when present. -/
def stripFinal (s : List Char) : List Char :=
  if ("-final".toList).isSuffixOf s ∨ ("_final".toList).isSuffixOf s then
    s.take (s.length - 6)
  else if ("final".toList).isSuffixOf s then
    s.take (s.length - 5)
  else s

/-- Helper for `collapseHyphens`: the flag records whether the previously
emitted character was a hyphen, so further hyphens of the same run are
dropped. -/
def collapseAux : Bool → List Char → List Char
  | _, [] => []
  | prevHyp, c :: rest =>
      if c = '-' then
        if prevHyp then collapseAux true rest else '-' :: collapseAux true rest
      else c :: collapseAux false rest

/-- `re.sub(r'-{2,}', '-', s)`: every maximal run of hyphens collapses to a
single hyphen (runs of length one are unchanged by the regex, so the result
is the same). -/
def collapseHyphens (s : List Char) : List Char := collapseAux false s

/-- `s.rstrip('-')`. -/
def rstripHyphens (s : List Char) : List Char :=
  (s.reverse.dropWhile (fun d => d = '-')).reverse

/-- Index of the last occurrence of `c` in `s`, if any (Python `str.rfind`). -/
def lastIdxOf (c : Char) : List Char → Option Nat
  | [] => none
  | a :: rest =>
      match lastIdxOf c rest with
      | some i => some (i + 1)
      | none => if a = c then some 0 else none

/-- The index at which `os.path.splitext` splits: the position of the last
dot, provided it comes after the last path separator and some non-dot
character precedes it within the basename (CPython's `genericpath._splitext`);
otherwise the extension is empty and the split index is the length. -/
def extSplitIdx (s : List Char) : Nat :=
  match lastIdxOf '.' s with
  | none => s.length
  | some d =>
      let b : Nat :=
        match lastIdxOf '/' s with
        | none => 0
        | some i => i + 1
      if b ≤ d ∧ ((s.drop b).take (d - b)).any (fun ch => ch ≠ '.') then d
      else s.length

/-- `os.path.splitext`. -/
def splitext (s : List Char) : List Char × List Char :=
  (s.take (extSplitIdx s), s.drop (extSplitIdx s))

/-- `normalize_filename` from prepare_epub.py: lowercase the stem, replace
spaces with hyphens, strip a trailing `final` token, collapse hyphen runs,
strip trailing hyphens, and lowercase the extension. -/
def normalize_filename (name : List Char) : List Char :=
  let p := splitext name
  rstripHyphens (collapseHyphens (stripFinal (spaceToHyphen (lowerStr p.1))))
    ++ lowerStr p.2

/-! ### Properties of the filename normalizer -/

/-- A character is tame when it is not an ASCII uppercase letter, so that
`lowerChar` fixes it. -/
def tame (c : Char) : Prop := ¬ (65 ≤ c.toNat ∧ c.toNat ≤ 90)

instance (c : Char) : Decidable (tame c) := by unfold tame; infer_instance

/-- No two adjacent hyphens occur in the string. -/
def noDoubleHyphen : List Char → Bool
  | [] => true
  | [_] => true
  | a :: b :: rest => !(a = '-' && b = '-') && noDoubleHyphen (b :: rest)

/-! ## Named-entity fixer (`fix_named_entities`, prepare_epub.py lines 164-191) -/

/-- Number of positions of `s` at which the pattern `p` occurs (for the
patterns of the entity table no two occurrences can overlap, so this agrees
with Python's notion of occurrence count). -/
def countOcc (p : List Char) : List Char → Nat
  | [] => 0
  | c :: rest => (if p.isPrefixOf (c :: rest) then 1 else 0) + countOcc p rest

/-- Python `text.replace(p, r)` for a nonempty pattern `p`: scan left to
right, replacing each (leftmost, non-overlapping) occurrence of `p` by `r`. -/
def replaceAll (p r : List Char) : List Char → List Char
  | [] => []
  | c :: rest =>
      if h : p ≠ [] ∧ p.isPrefixOf (c :: rest) then
        r ++ replaceAll p r ((c :: rest).drop p.length)
      else c :: replaceAll p r rest
termination_by s => s.length
decreasing_by
  · have : 0 < p.length := List.length_pos.mpr h.1
    simp only [List.length_drop, List.length_cons]
    omega
  · simp

/-- The `replacements` dictionary of `fix_named_entities`, in insertion
order. -/
def entityTable : List (List Char × List Char) :=
  [("&nbsp;".toList, "&#160;".toList),
   ("&ensp;".toList, "&#8194;".toList),
   ("&emsp;".toList, "&#8195;".toList),
   ("&thinsp;".toList, "&#8201;".toList),
   ("&ndash;".toList, "&#8211;".toList),
   ("&mdash;".toList, "&#8212;".toList),
   ("&hellip;".toList, "&#8230;".toList),
   ("&lsquo;".toList, "&#8216;".toList),
   ("&rsquo;".toList, "&#8217;".toList),
   ("&ldquo;".toList, "&#8220;".toList),
   ("&rdquo;".toList, "&#8221;".toList),
   ("&copy;".toList, "&#169;".toList),
   ("&reg;".toList, "&#174;".toList)]

/-- One loop iteration of `fix_named_entities`: `if named in text: text =
text.replace(named, numeric)`. -/
def applyPair (t : List Char) (pr : List Char × List Char) : List Char :=
  if 0 < countOcc pr.1 t then replaceAll pr.1 pr.2 t else t

/-- `fix_named_entities` from prepare_epub.py. -/
def fix_named_entities (t : List Char) : List Char :=
  entityTable.foldl applyPair t

/-! ### Non-interference conditions between patterns and replacements -/

/-- Two strings are aligned when one is a prefix of the other: exactly the
situation in which an occurrence of one can start at a position inside an
occurrence of the other (or inside inserted text). -/
def aligned (a b : List Char) : Bool := a.isPrefixOf b || b.isPrefixOf a

/-- No suffix of `a` (the whole string included) aligns with `b`. -/
def suffAlignFree (a b : List Char) : Bool :=
  (List.range a.length).all (fun k => !(aligned (a.drop k) b))

/-- No proper nonempty suffix of `a` aligns with `b`. -/
def properSuffAlignFree (a b : List Char) : Bool :=
  (List.range a.length).all (fun k => k == 0 || !(aligned (a.drop k) b))

/-- Conditions under which replacing `p` by `r` eliminates all occurrences
of `p`. -/
def okElim (p r : List Char) : Bool :=
  !(p.isEmpty) && suffAlignFree r p && properSuffAlignFree p r

/-- Conditions under which replacing `p` by `r` preserves the number of
occurrences of an unrelated pattern `q`. -/
def okPreserve (p r q : List Char) : Bool :=
  !(p.isEmpty) && !(q.isEmpty) && suffAlignFree p q && properSuffAlignFree q p &&
    suffAlignFree r q && properSuffAlignFree q r

/-- Conditions under which replacing `p` by `r` turns each occurrence of `p`
into exactly one new occurrence of `r` and touches no other occurrence of
`r`. -/
def okCount (p r : List Char) : Bool :=
  !(p.isEmpty) && !(r.isEmpty) && suffAlignFree p r && properSuffAlignFree r p &&
    properSuffAlignFree p p && properSuffAlignFree r r

/-! ## Manifest builder (`build_content_opf`, prepare_epub.py lines 288-386) -/

/-- The ASCII digit character for `n < 10`. -/
def digitChar (n : Nat) : Char := Char.ofNat (48 + n)

/-- Fuel-driven decimal writer; with fuel above `n` it produces the usual
most-significant-first digit string. -/
def toDecimalAux : Nat → Nat → List Char
  | 0, _ => []
  | fuel + 1, n =>
      if n < 10 then [digitChar n]
      else toDecimalAux fuel (n / 10) ++ [digitChar (n % 10)]

/-- Decimal representation of a natural number (Python `str(n)` for a
non-negative `int`). -/
def toDecimal (n : Nat) : List Char := toDecimalAux (n + 1) n

/-- Digit-string reader, a left inverse of `toDecimal`. -/
def fromDecimal (l : List Char) : Nat :=
  l.foldl (fun acc c => 10 * acc + (c.toNat - 48)) 0

/-- `pathlib.PurePath.stem`: the name without its last suffix; a suffix
exists only when the last dot is neither the first nor the last character of
the name. -/
def pathStem (name : List Char) : List Char :=
  match lastIdxOf '.' name with
  | none => name
  | some i => if 0 < i ∧ i + 1 < name.length then name.take i else name

/-- `pathlib.PurePath.suffix` under the same convention. -/
def pathSuffix (name : List Char) : List Char :=
  match lastIdxOf '.' name with
  | none => []
  | some i => if 0 < i ∧ i + 1 < name.length then name.drop i else []

/-- `re.sub(r'[^a-zA-Z0-9]', '_', s)`, used for image and font ids. -/
def mungeId (s : List Char) : List Char :=
  s.map (fun c =>
    if (65 ≤ c.toNat ∧ c.toNat ≤ 90) ∨ (97 ≤ c.toNat ∧ c.toNat ≤ 122) ∨
        (48 ≤ c.toNat ∧ c.toNat ≤ 57) then c else '_')

/-- One `<item .../>` line of the generated manifest. -/
structure ManifestItem where
  id : List Char
  href : List Char
  mediaType : String

/-- The `mime_map` for images, keyed by lower-cased suffix; `none` means the
file is skipped. -/
def imageMime (ext : List Char) : Option String :=
  if ext = ".jpg".toList ∨ ext = ".jpeg".toList then some "image/jpeg"
  else if ext = ".png".toList then some "image/png"
  else if ext = ".gif".toList then some "image/gif"
  else if ext = ".svg".toList then some "image/svg+xml"
  else none

/-- The `mime_map` for fonts. -/
def fontMime (ext : List Char) : Option String :=
  if ext = ".ttf".toList then some "font/ttf"
  else if ext = ".otf".toList then some "font/otf"
  else if ext = ".woff".toList then some "font/woff"
  else if ext = ".woff2".toList then some "font/woff2"
  else none

/-- The manifest assembled by `build_content_opf`: one `item<N>` entry per
content file (`xhtml` is the sorted list of relative paths), one entry per
stylesheet named by its raw stem, one entry per recognized image and font
named by its munged stem, and the fixed `nav` entry appended last. -/
def buildManifest (xhtml css imgs fonts : List (List Char)) : List ManifestItem :=
  (List.range xhtml.length).map (fun i =>
    { id := "item".toList ++ toDecimal (i + 1),
      href := xhtml.getD i [],
      mediaType := "application/xhtml+xml" })
  ++ css.map (fun n =>
    { id := pathStem n, href := "styles/".toList ++ n, mediaType := "text/css" })
  ++ imgs.filterMap (fun n =>
      match imageMime (lowerStr (pathSuffix n)) with
      | some mt => some { id := mungeId (pathStem n),
                          href := "images/".toList ++ n, mediaType := mt }
      | none => none)
  ++ fonts.filterMap (fun n =>
      match fontMime (lowerStr (pathSuffix n)) with
      | some mt => some { id := mungeId (pathStem n),
                          href := "fonts/".toList ++ n, mediaType := mt }
      | none => none)
  ++ [{ id := "nav".toList, href := "3-TableOfContents.xhtml".toList,
        mediaType := "application/xhtml+xml" }]

/-- The ids of the generated manifest, in manifest order. -/
def manifestIds (xhtml css imgs fonts : List (List Char)) : List (List Char) :=
  (buildManifest xhtml css imgs fonts).map (fun it => it.id)

/-- The ids contributed by stylesheet, image and font assets. -/
def assetIds (css imgs fonts : List (List Char)) : List (List Char) :=
  css.map pathStem
  ++ (imgs.filter (fun n => (imageMime (lowerStr (pathSuffix n))).isSome)).map
      (fun n => mungeId (pathStem n))
  ++ (fonts.filter (fun n => (fontMime (lowerStr (pathSuffix n))).isSome)).map
      (fun n => mungeId (pathStem n))

/-! ## Archive packager (`create_epub`, prepare_epub.py lines 389-420)

The project directory is modelled as an association list from relative paths
to file contents (paths unique, an invariant of a file system); `os.walk`
enumerates the files in this list order. -/

/-- Compression mode of a ZIP entry. -/
inductive Compression where
  | stored
  | deflated
deriving DecidableEq

/-- One entry of the produced archive. -/
structure ZipEntry where
  name : String
  data : String
  comp : Compression
deriving DecidableEq

/-- The literal payload written into a fresh `mimetype` file. -/
def mimetypeLiteral : String := "application/epub+zip"

/-- First value bound to a key in an association-list file system. -/
def lookupFile (fs : List (String × String)) (p : String) : Option String :=
  match fs with
  | [] => none
  | e :: rest => if e.1 = p then some e.2 else lookupFile rest p

/-- Overwrite the file at `p` when present, else create it (at the end of
the walk order). -/
def setFile (fs : List (String × String)) (p v : String) : List (String × String) :=
  match fs with
  | [] => [(p, v)]
  | e :: rest => if e.1 = p then (p, v) :: rest else e :: setFile rest p v

/-- `create_epub` from prepare_epub.py, as a function from the project file
system to the archive entry list: create `mimetype` with the literal payload
if absent, write `META-INF/container.xml`, then emit the mimetype entry
first and stored, followed by every other file, deflated, in walk order. -/
def create_epub (fs : List (String × String)) (containerXml : String) :
    List ZipEntry :=
  let fs1 := if (lookupFile fs "mimetype").isSome then fs
             else fs ++ [("mimetype", mimetypeLiteral)]
  let fs2 := setFile fs1 "META-INF/container.xml" containerXml
  { name := "mimetype", data := (lookupFile fs2 "mimetype").getD "",
    comp := Compression.stored } ::
  (fs2.filter (fun e => e.1 ≠ "mimetype")).map
    (fun e => { name := e.1, data := e.2, comp := Compression.deflated })

/-- The property claimed by C6 for a given project file system: the first
entry is `mimetype`, stored, with the literal payload, and every other file
of the (post-bootstrap) project appears exactly once, deflated. -/
def archiveClaim (fs : List (String × String)) (containerXml : String) : Prop :=
  let entries := create_epub fs containerXml
  entries.head? = some { name := "mimetype", data := mimetypeLiteral,
                         comp := Compression.stored } ∧
  (entries.tail.map (fun e => e.name)).Nodup ∧
  (∀ e ∈ entries.tail, e.comp = Compression.deflated)

instance (fs : List (String × String)) (c : String) :
    Decidable (archiveClaim fs c) := by
  unfold archiveClaim
  infer_instance

/-- Keys of the file-system association list. -/
def fsKeys (fs : List (String × String)) : List String := fs.map (fun e => e.1)

/-! ## Parsed document trees

The XHTML-manipulating functions work on the tree produced by
`BeautifulSoup(text, 'lxml')`.  A node is an element with a tag name, an
attribute list and ordered children, or a text node. -/

/-- A node of the parsed document tree. -/
inductive Node where
  | text (s : String)
  | elem (name : String) (attrs : List (String × String)) (children : List Node)

/-- First value bound to an attribute key (`tag.get(key)`; BeautifulSoup
attribute dicts bind each key once). -/
def attrGet (attrs : List (String × String)) (k : String) : Option String :=
  match attrs with
  | [] => none
  | a :: rest => if a.1 = k then some a.2 else attrGet rest k

/-- Python whitespace test (`str.split` with no argument). -/
def isWs (c : Char) : Bool :=
  c = ' ' || c = '\t' || c = '\n' || c = '\r' || c = '\x0b' || c = '\x0c'

/-- `value.split()` on whitespace runs, dropping empty pieces, as
BeautifulSoup tokenizes multi-valued `class` attributes. -/
def splitWsAux (acc : List Char) : List Char → List (List Char)
  | [] => if acc = [] then [] else [acc.reverse]
  | c :: rest =>
      if isWs c then
        if acc = [] then splitWsAux [] rest else acc.reverse :: splitWsAux [] rest
      else splitWsAux (c :: acc) rest

/-- BeautifulSoup `class_=cls` matching: `cls` is one of the whitespace
separated tokens of the `class` attribute. -/
def hasClassToken (attrs : List (String × String)) (cls : String) : Bool :=
  match attrGet attrs "class" with
  | none => false
  | some v => (splitWsAux [] v.toList).any (fun t => t = cls.toList)

/-- Direct-child test for `find_all('li', recursive=False)`. -/
def isLiNode : Node → Bool
  | .elem nm _ _ => nm = "li"
  | .text _ => false

/-! ## Quiz option padding (`populate_quiz_options`, prepare_epub.py
lines 247-263) -/

/-- The placeholder items appended to a quiz-options list having `n` direct
`li` children: `Placeholder option N` for `N` from `n+1` up to `4` (none
when `n ≥ 4`). -/
def placeholders (n : Nat) : List Node :=
  (List.range' (n + 1) (4 - n)).map (fun i =>
    Node.elem "li" []
      [Node.text (String.mk ("Placeholder option ".toList ++ toDecimal i))])

mutual
/-- `populate_quiz_options` on the parsed tree: every `ul` carrying the
`quiz-options` class token gets placeholder `li` children appended until it
has at least four direct `li` children; everything else is traversed
unchanged. -/
def padQuiz : Node → Node
  | .text s => .text s
  | .elem nm attrs ch =>
      if nm = "ul" ∧ hasClassToken attrs "quiz-options" = true then
        .elem nm attrs (padQuizL ch ++ placeholders ((ch.filter isLiNode).length))
      else .elem nm attrs (padQuizL ch)

/-- `padQuiz` mapped over a child list. -/
def padQuizL : List Node → List Node
  | [] => []
  | c :: cs => padQuiz c :: padQuizL cs
end

mutual
/-- Every quiz-options `ul` anywhere in the tree has at least four direct
`li` children. -/
def quizMin4 : Node → Bool
  | .text _ => true
  | .elem nm attrs ch =>
      (!(decide (nm = "ul") && hasClassToken attrs "quiz-options") ||
        decide (4 ≤ (ch.filter isLiNode).length)) && quizMin4L ch

/-- `quizMin4` over a child list. -/
def quizMin4L : List Node → Bool
  | [] => true
  | c :: cs => quizMin4 c && quizMin4L cs
end

/-! ## Reference mapper (`update_references_in_yaml`, prepare_epub.py
lines 121-141) -/

/-- A value of the structure `yaml.safe_load` produces for the book map:
mappings with string keys, sequences, strings, and other scalars. -/
inductive PyObj where
  | str (s : String)
  | int (n : Int)
  | bool (b : Bool)
  | none
  | dict (entries : List (String × PyObj))
  | list (items : List PyObj)

/-- `mapping.get(s, s)`: the value bound to an exactly matching key, or `s`
itself when no key matches. -/
def mappingGet (mapping : List (String × String)) (s : String) : String :=
  match mapping with
  | [] => s
  | e :: rest => if e.1 = s then e.2 else mappingGet rest s

mutual
/-- `replace_in_obj` from `update_references_in_yaml`: dict values and list
items are rewritten recursively, a string leaf is replaced when it exactly
equals a mapping key, and every other leaf (and every dict key) is returned
unchanged. -/
def replace_in_obj (mapping : List (String × String)) : PyObj → PyObj
  | .str s => .str (mappingGet mapping s)
  | .int n => .int n
  | .bool b => .bool b
  | .none => .none
  | .dict entries => .dict (replaceDict mapping entries)
  | .list items => .list (replaceList mapping items)

/-- `replace_in_obj` over dict entries. -/
def replaceDict (mapping : List (String × String)) :
    List (String × PyObj) → List (String × PyObj)
  | [] => []
  | e :: rest => (e.1, replace_in_obj mapping e.2) :: replaceDict mapping rest

/-- `replace_in_obj` over sequence items. -/
def replaceList (mapping : List (String × String)) : List PyObj → List PyObj
  | [] => []
  | x :: rest => replace_in_obj mapping x :: replaceList mapping rest
end

/-! ## Locating and rewriting the first element with a given tag

`soup.find(tag)` returns the first matching element in document (pre-order)
order; the script then mutates that element in place.  `replaceFirst`
captures the resulting whole-document rewrite. -/

mutual
/-- `soup.find(target)`. -/
def findFirst (target : String) : Node → Option Node
  | .text _ => none
  | .elem nm attrs ch =>
      if nm = target then some (.elem nm attrs ch) else findFirstL target ch

/-- `findFirst` over a child list, first hit wins. -/
def findFirstL (target : String) : List Node → Option Node
  | [] => none
  | c :: cs =>
      match findFirst target c with
      | some n => some n
      | none => findFirstL target cs
end

mutual
/-- Apply `f` to the first element with tag `target`; the flag reports
whether one was found. -/
def replaceFirst (target : String) (f : Node → Node) : Node → Node × Bool
  | .text s => (.text s, false)
  | .elem nm attrs ch =>
      if nm = target then (f (.elem nm attrs ch), true)
      else
        let r := replaceFirstL target f ch
        (.elem nm attrs r.1, r.2)

/-- `replaceFirst` over a child list, rewriting only the subtree holding the
first hit. -/
def replaceFirstL (target : String) (f : Node → Node) : List Node → List Node × Bool
  | [] => ([], false)
  | c :: cs =>
      let r := replaceFirst target f c
      if r.2 then (r.1 :: cs, true)
      else
        let rs := replaceFirstL target f cs
        (c :: rs.1, rs.2)
end

/-! ## Stylesheet-link step of `fix_xhtml_file` (prepare_epub.py
lines 223-231) -/

/-- The `styles_to_ensure` list. -/
def requiredHrefs : List String := ["../styles/style.css", "../styles/fonts.css"]

mutual
/-- Hrefs of every `link` element with an `href` attribute in a subtree, in
document order (`head.find_all('link', href=True)` searches all descendants
of the head). -/
def linkHrefsN : Node → List String
  | .text _ => []
  | .elem nm attrs ch =>
      (if nm = "link" ∧ (attrGet attrs "href").isSome then
        [(attrGet attrs "href").getD ""]
      else []) ++ linkHrefsL ch

/-- `linkHrefsN` over a child list. -/
def linkHrefsL : List Node → List String
  | [] => []
  | c :: cs => linkHrefsN c ++ linkHrefsL cs
end

/-- The fresh `<link rel="stylesheet" href=.../>` tag built by
`soup.new_tag`. -/
def newLink (href : String) : Node :=
  Node.elem "link" [("rel", "stylesheet"), ("href", href)] []

/-- The per-head rewrite: collect the hrefs of the link descendants once,
then append one new link for each required href not already present. -/
def fixHead : Node → Node
  | .elem nm attrs ch =>
      .elem nm attrs (ch ++
        (requiredHrefs.filter (fun h => decide (h ∉ linkHrefsL ch))).map newLink)
  | n => n

/-- The stylesheet-link step applied to a document: rewrite the first
`head` element, if any. -/
def ensureStylesheets (doc : Node) : Node :=
  (replaceFirst "head" fixHead doc).1

/-- Number of link descendants of the document's first head carrying the
given href. -/
def headLinkCount (doc : Node) (href : String) : Nat :=
  match findFirst "head" doc with
  | some hd => (linkHrefsN hd).count href
  | none => 0

/-! ## Quiz-key restructuring (`restructure_quiz_key`, prepare_epub.py
lines 266-285) -/

/-- Matches `body.find_all(['p', 'div'], recursive=False)`. -/
def isPDiv : Node → Bool
  | .elem nm _ _ => nm = "p" || nm = "div"
  | .text _ => false

/-- Python `str.strip()` on both ends. -/
def pyStrip (s : List Char) : List Char :=
  ((s.dropWhile isWs).reverse.dropWhile isWs).reverse

mutual
/-- The stripped text pieces `get_text(strip=True)` collects from a
subtree: each descendant text node stripped of surrounding whitespace,
empty results dropped, in document order. -/
def strippedTexts : Node → List (List Char)
  | .text s => if pyStrip s.toList = [] then [] else [pyStrip s.toList]
  | .elem _ _ ch => strippedTextsL ch

/-- `strippedTexts` over a child list. -/
def strippedTextsL : List Node → List (List Char)
  | [] => []
  | c :: cs => strippedTexts c ++ strippedTextsL cs
end

/-- `para.get_text(strip=True)`: the stripped pieces joined with the empty
separator. -/
def getTextStripped (n : Node) : String := String.mk (strippedTexts n).join

/-- The body rewrite of `restructure_quiz_key`: the direct `p`/`div`
children are decomposed and one ordered list, holding their stripped
flattened text in document order, is appended. -/
def restructureBody : Node → Node
  | .elem nm attrs ch =>
      .elem nm attrs ((ch.filter (fun c => !(isPDiv c))) ++
        [Node.elem "ol" [] ((ch.filter isPDiv).map (fun par =>
          Node.elem "li" [] [Node.text (getTextStripped par)]))])
  | n => n

/-- `restructure_quiz_key` from prepare_epub.py; `none` models "the file is
not rewritten" (the function returns before writing when the document has no
body or the body has no direct `p`/`div` children). -/
def restructure_quiz_key (doc : Node) : Option Node :=
  match findFirst "body" doc with
  | some (.elem _ _ ch) =>
      if (ch.filter isPDiv).isEmpty then none
      else some ((replaceFirst "body" restructureBody doc).1)
  | some (.text _) => none
  | none => none

/-! ## The `<hr>`-relocation step of `fix_xhtml_file` (prepare_epub.py
lines 209-218)

For each `hr` whose parent is a `ul`, `ol` or `li`, the source extracts it
and walks up from the parent while the current node is still a list
element, then re-inserts the `hr` immediately after the first non-list
ancestor.  Since `find_all('hr')` is computed before any mutation, moving
one `hr` never changes another's ancestor chain, so the loop is equivalent
to the following recursive pass: `fixHrs` returns the rewritten node
together with the extracted `hr`s still travelling upward (their ancestors
so far are all list elements) and the `hr`s whose walk terminated at this
node, to be re-inserted right after it.  Repeated `insert_after` at the
same anchor reverses their document order, hence the `reverse` at the
insertion point.  `hr` elements are void (childless) under the lxml tree
builder, which the `hrsVoid` hypothesis records. -/

/-- Membership in the `{'ul', 'ol', 'li'}` set of the source. -/
def isListName (nm : String) : Bool :=
  decide (nm = "ul") || decide (nm = "ol") || decide (nm = "li")

/-- List-element test on nodes. -/
def isListNode : Node → Bool
  | .elem nm _ _ => isListName nm
  | .text _ => false

/-- `hr`-element test on nodes. -/
def isHrNode : Node → Bool
  | .elem nm _ _ => decide (nm = "hr")
  | .text _ => false

/-- A childless `hr` element. -/
def isVoidHr : Node → Bool
  | .elem nm _ ch => decide (nm = "hr") && ch.isEmpty
  | .text _ => false

mutual
/-- The `hr`-relocation pass; result `(n', rising, after)`: `n'` is the
rewritten subtree, `rising` the extracted `hr`s whose upward walk continues
past this node (nonempty only for list elements), `after` the `hr`s whose
walk terminated here, to be inserted right after this node in its parent. -/
def fixHrs : Node → Node × List Node × List Node
  | .text s => (.text s, [], [])
  | .elem nm attrs ch =>
      if isListName nm then
        (.elem nm attrs (fixChildren true ch).1, (fixChildren true ch).2, [])
      else
        (.elem nm attrs (fixChildren false ch).1, [], (fixChildren false ch).2)

/-- Process a child list; `pil` says whether the parent is a list element
(so that direct `hr` children are extracted).  Returns the new child list
and the `hr`s escaping past the parent. -/
def fixChildren : Bool → List Node → List Node × List Node
  | _, [] => ([], [])
  | pil, c :: cs =>
      if pil && isHrNode c then
        ((fixChildren pil cs).1,
          ((fixHrs c).1 :: ((fixHrs c).2.1 ++ (fixHrs c).2.2)) ++ (fixChildren pil cs).2)
      else
        (((fixHrs c).1 :: (fixHrs c).2.2.reverse) ++ (fixChildren pil cs).1,
          (fixHrs c).2.1 ++ (fixChildren pil cs).2)
end

mutual
/-- No `hr` element is a descendant of a `ul`, `ol` or `li` (`il` records
whether the current position is already inside a list element). -/
def noHrUnderList (il : Bool) : Node → Bool
  | .text _ => true
  | .elem nm _ ch =>
      (!(il && decide (nm = "hr"))) && noHrUnderListL (il || isListName nm) ch

/-- `noHrUnderList` over a child list. -/
def noHrUnderListL (il : Bool) : List Node → Bool
  | [] => true
  | c :: cs => noHrUnderList il c && noHrUnderListL il cs
end

mutual
/-- Every `hr` element in the tree is childless (a guarantee of the lxml
tree builder: `hr` is a void element). -/
def hrsVoid : Node → Bool
  | .text _ => true
  | .elem nm _ ch => (!(decide (nm = "hr")) || ch.isEmpty) && hrsVoidL ch

/-- `hrsVoid` over a child list. -/
def hrsVoidL : List Node → Bool
  | [] => true
  | c :: cs => hrsVoid c && hrsVoidL cs
end

mutual
/-- No non-list element that sits inside a list element has a list element
or an `hr` among its children.  Under this discipline every `hr` inside a
list structure has a list parent, and every relocation target lies outside
any list. -/
def noBadWrappers (il : Bool) : Node → Bool
  | .text _ => true
  | .elem nm _ ch =>
      (!(il && !(isListName nm)) ||
        ch.all (fun c => !(isListNode c || isHrNode c))) &&
      noBadWrappersL (il || isListName nm) ch

/-- `noBadWrappers` over a child list. -/
def noBadWrappersL (il : Bool) : List Node → Bool
  | [] => true
  | c :: cs => noBadWrappers il c && noBadWrappersL il cs
end

/-- The document root produced by the parser: a non-list element whose
direct children are non-list elements (lxml always wraps content in
`html`), so that no extracted `hr`'s walk reaches the root. -/
def rootSane : Node → Bool
  | .text _ => false
  | .elem nm _ ch => !(isListName nm) && ch.all (fun c => !(isListNode c))

/-- A content document with an `hr` wrapped in a `div` inside an `li`. -/
def divWrappedHrDoc : Node :=
  Node.elem "[document]" [] [Node.elem "html" []
    [Node.elem "body" [] [Node.elem "ul" [] [Node.elem "li" []
      [Node.elem "div" [] [Node.elem "hr" [] []]]]]]]

/-- The spec's scenario A document: an `hr` directly inside a `ul`. -/
def scenarioADoc : Node :=
  Node.elem "[document]" [] [Node.elem "html" []
    [Node.elem "body" []
      [Node.elem "ul" [] [Node.elem "li" [] [Node.text "x"],
        Node.elem "hr" [] []],
       Node.elem "p" [] [Node.text "y"]]]]

/-! ## Theorems -/

theorem charOfNat_toNat {n : Nat} (h1 : 97 ≤ n) (h2 : n ≤ 122) :
    (Char.ofNat n).toNat = n := by
  interval_cases n <;> decide

theorem lowerChar_tame (c : Char) : tame (lowerChar c) := by
  unfold lowerChar tame
  by_cases h : 65 ≤ c.toNat ∧ c.toNat ≤ 90
  · rw [if_pos h, charOfNat_toNat (by omega) (by omega)]
    omega
  · rwa [if_neg h]

theorem lowerChar_id_of_tame {c : Char} (h : tame c) : lowerChar c = c := by
  unfold lowerChar
  exact if_neg h

theorem map_self_id {α : Type} {f : α → α} :
    ∀ {s : List α}, (∀ c ∈ s, f c = c) → s.map f = s
  | [], _ => rfl
  | c :: rest, h => by
      rw [List.map_cons, h c (List.mem_cons_self c rest),
        map_self_id (fun d hd => h d (List.mem_cons_of_mem c hd))]

theorem lowerStr_id {s : List Char} (h : ∀ c ∈ s, tame c) : lowerStr s = s :=
  map_self_id (fun c hc => lowerChar_id_of_tame (h c hc))

theorem lowerStr_tame (s : List Char) : ∀ c ∈ lowerStr s, tame c := by
  intro c hc
  obtain ⟨d, _, rfl⟩ := List.mem_map.mp hc
  exact lowerChar_tame d

theorem spaceToHyphen_id {s : List Char} (h : ' ' ∉ s) : spaceToHyphen s = s :=
  map_self_id (fun c hc => if_neg (by rintro rfl; exact h hc))

theorem spaceToHyphen_mem {s : List Char} {c : Char} (hc : c ∈ spaceToHyphen s) :
    c ∈ s ∨ c = '-' := by
  obtain ⟨d, hd, rfl⟩ := List.mem_map.mp hc
  by_cases h : d = ' '
  · exact Or.inr (by rw [if_pos h])
  · exact Or.inl (by rwa [if_neg h])

theorem stripFinal_subset (s : List Char) : stripFinal s ⊆ s := by
  unfold stripFinal
  split
  · exact List.take_subset _ _
  · split
    · exact List.take_subset _ _
    · exact fun _ h => h

theorem stripFinal_id {s : List Char}
    (h : ¬ ("final".toList.isSuffixOf s = true)) : stripFinal s = s := by
  have hf : ¬ ("final".toList <:+ s) := fun hs => h (List.isSuffixOf_iff_suffix.mpr hs)
  unfold stripFinal
  rw [if_neg, if_neg]
  · intro hs
    exact hf (List.IsSuffix.trans (by decide) (List.isSuffixOf_iff_suffix.mp hs))
  · rintro (hs | hs) <;>
      exact hf (List.IsSuffix.trans (by decide) (List.isSuffixOf_iff_suffix.mp hs))

theorem collapseAux_mem :
    ∀ (b : Bool) (s : List Char), ∀ c ∈ collapseAux b s, c ∈ s
  | _, [] => by simp [collapseAux]
  | b, a :: rest => by
      intro c hc
      rw [collapseAux] at hc
      by_cases ha : a = '-'
      · rw [if_pos ha] at hc
        cases b with
        | true =>
            exact List.mem_cons_of_mem _ (collapseAux_mem true rest c (by simpa using hc))
        | false =>
            rw [if_neg (by simp)] at hc
            rcases List.mem_cons.mp hc with h | h
            · exact ha ▸ h ▸ List.mem_cons_self _ _
            · exact List.mem_cons_of_mem _ (collapseAux_mem true rest c h)
      · rw [if_neg ha] at hc
        rcases List.mem_cons.mp hc with h | h
        · exact h ▸ List.mem_cons_self _ _
        · exact List.mem_cons_of_mem _ (collapseAux_mem false rest c h)

theorem noDoubleHyphen_tail {c : Char} {rest : List Char}
    (h : noDoubleHyphen (c :: rest) = true) : noDoubleHyphen rest = true := by
  cases rest with
  | nil => rfl
  | cons d r =>
      unfold noDoubleHyphen at h
      simp only [Bool.and_eq_true] at h
      exact h.2

theorem collapseAux_id :
    ∀ (s : List Char) (b : Bool), noDoubleHyphen s = true →
      (b = true → s.head? ≠ some '-') → collapseAux b s = s
  | [], _, _, _ => rfl
  | c :: rest, b, h, hb => by
      rw [collapseAux]
      by_cases hc : c = '-'
      · cases b with
        | true => exact absurd (by rw [List.head?_cons, hc]) (hb rfl)
        | false =>
            rw [if_pos hc, if_neg (by simp)]
            have hrest : rest.head? ≠ some '-' := by
              cases rest with
              | nil => simp
              | cons d r =>
                  unfold noDoubleHyphen at h
                  simp only [Bool.and_eq_true] at h
                  obtain ⟨hcd, _⟩ := h
                  rw [Bool.not_eq_true', Bool.and_eq_false_iff] at hcd
                  rcases hcd with h' | h'
                  · exact absurd hc (by simpa using h')
                  · simpa using h'
            rw [hc, collapseAux_id rest true (noDoubleHyphen_tail h) (fun _ => hrest)]
      · rw [if_neg hc, collapseAux_id rest false (noDoubleHyphen_tail h) (fun hf => nomatch hf)]

theorem collapseHyphens_mem {s : List Char} {c : Char} (hc : c ∈ collapseHyphens s) :
    c ∈ s :=
  collapseAux_mem false s c hc

theorem collapseHyphens_id {s : List Char} (h : noDoubleHyphen s = true) :
    collapseHyphens s = s :=
  collapseAux_id s false h (fun hf => nomatch hf)

theorem rstripHyphens_subset (s : List Char) : rstripHyphens s ⊆ s := by
  unfold rstripHyphens
  intro c hc
  rw [List.mem_reverse] at hc
  have := (List.dropWhile_sublist (fun d => decide (d = '-'))).subset hc
  rwa [List.mem_reverse] at this

theorem rstripHyphens_id {s : List Char} (h : s.getLast? ≠ some '-') :
    rstripHyphens s = s := by
  unfold rstripHyphens
  cases hs : s.reverse with
  | nil =>
      have : s = [] := by simpa using congrArg List.reverse hs
      simp [this]
  | cons a t =>
      have ha : a ≠ '-' := by
        intro hae
        apply h
        rw [← List.head?_reverse s, hs, hae]
        rfl
      rw [List.dropWhile_cons_of_neg (by simpa using ha), ← hs, List.reverse_reverse]

theorem normalize_filename_tame (x : List Char) :
    ∀ c ∈ normalize_filename x, tame c := by
  intro c hc
  unfold normalize_filename at hc
  rcases List.mem_append.mp hc with h | h
  · rcases stripFinal_subset _ (collapseHyphens_mem (rstripHyphens_subset _ h))
      |> spaceToHyphen_mem with h' | h'
    · exact lowerStr_tame _ c h'
    · rw [h']; decide
  · exact lowerStr_tame _ c h

/-- The claim that `normalize_filename` is idempotent on every input is false:
on `"x-final-final.xhtml"` one application yields `"x-final.xhtml"` while a
second yields `"x.xhtml"`, because the end-anchored regex strips only one
trailing `final` token per run. -/
theorem c1_counterexample :
    ¬ (normalize_filename (normalize_filename ("x-final-final.xhtml".toList))
        = normalize_filename ("x-final-final.xhtml".toList)) := by decide

/-- Amended claim C1: `normalize_filename` is idempotent on every input whose
normalized form re-splits into a stem with no space, no adjacent hyphens, no
trailing hyphen, and no trailing `final` token.  (The output always satisfies
all but the space and `final` conditions when the extension boundary is
stable; the counterexamples are exactly inputs violating one of these.) -/
theorem c1_amended (x : List Char)
    (h1 : ' ' ∉ (splitext (normalize_filename x)).1)
    (h2 : ¬ ("final".toList.isSuffixOf (splitext (normalize_filename x)).1 = true))
    (h3 : noDoubleHyphen (splitext (normalize_filename x)).1 = true)
    (h4 : (splitext (normalize_filename x)).1.getLast? ≠ some '-') :
    normalize_filename (normalize_filename x) = normalize_filename x := by
  have htame := normalize_filename_tame x
  set y := normalize_filename x with hy
  have hsplit : (splitext y).1 ++ (splitext y).2 = y := List.take_append_drop _ _
  have htame1 : ∀ c ∈ (splitext y).1, tame c := fun c hc =>
    htame c (hsplit ▸ List.mem_append.mpr (Or.inl hc))
  have htame2 : ∀ c ∈ (splitext y).2, tame c := fun c hc =>
    htame c (hsplit ▸ List.mem_append.mpr (Or.inr hc))
  calc normalize_filename y
      = rstripHyphens (collapseHyphens (stripFinal (spaceToHyphen
          (lowerStr (splitext y).1)))) ++ lowerStr (splitext y).2 := rfl
    _ = (splitext y).1 ++ (splitext y).2 := by
        rw [lowerStr_id htame1, spaceToHyphen_id h1, stripFinal_id h2,
          collapseHyphens_id h3, rstripHyphens_id h4, lowerStr_id htame2]
    _ = y := hsplit

/-- Witness for the amended claim C1 at the concrete input
`"Chapter One_Final.xhtml"`. -/
theorem c1_amended_witness :
    (' ' ∉ (splitext (normalize_filename ("Chapter One_Final.xhtml".toList))).1) ∧
    normalize_filename (normalize_filename ("Chapter One_Final.xhtml".toList))
      = normalize_filename ("Chapter One_Final.xhtml".toList) :=
  ⟨by decide, c1_amended _ (by decide) (by decide) (by decide) (by decide)⟩

theorem aligned_false_not_prefix {a p w : List Char} (h : aligned a p = false) :
    ¬ (p <+: a ++ w) := by
  intro hp
  unfold aligned at h
  rw [Bool.or_eq_false_iff] at h
  rcases List.prefix_or_prefix_of_prefix hp (List.prefix_append a w) with h' | h'
  · exact absurd (List.isPrefixOf_iff_prefix.mpr h') (by simp [h.2])
  · exact absurd (List.isPrefixOf_iff_prefix.mpr h') (by simp [h.1])

theorem suffAlignFree_spec {a b : List Char} (h : suffAlignFree a b = true)
    {k : Nat} (hk : k < a.length) : aligned (a.drop k) b = false := by
  unfold suffAlignFree at h
  rw [List.all_eq_true] at h
  have := h k (List.mem_range.mpr hk)
  simpa using this

theorem properSuffAlignFree_spec {a b : List Char} (h : properSuffAlignFree a b = true)
    {k : Nat} (hk0 : 0 < k) (hk : k < a.length) : aligned (a.drop k) b = false := by
  unfold properSuffAlignFree at h
  rw [List.all_eq_true] at h
  have h2 : k = 0 ∨ aligned (a.drop k) b = false := by
    simpa using h k (List.mem_range.mpr hk)
  rcases h2 with h' | h'
  · omega
  · exact h'

theorem countOcc_append_of_no_start (p : List Char) :
    ∀ (a b : List Char), (∀ k, k < a.length → ¬ (p <+: (a.drop k ++ b))) →
      countOcc p (a ++ b) = countOcc p b
  | [], _, _ => rfl
  | x :: a', b, h => by
      rw [List.cons_append, countOcc]
      have h0 : ¬ (p.isPrefixOf (x :: (a' ++ b)) = true) := by
        intro hp
        exact h 0 (by simp) (by simpa using List.isPrefixOf_iff_prefix.mp hp)
      rw [if_neg h0, countOcc_append_of_no_start p a' b
        (fun k hk hp => h (k + 1) (by simpa using Nat.succ_lt_succ hk) (by simpa using hp))]
      omega

theorem countOcc_self_append {p b : List Char} (hne : p ≠ [])
    (hself : properSuffAlignFree p p = true) :
    countOcc p (p ++ b) = 1 + countOcc p b := by
  cases p with
  | nil => exact absurd rfl hne
  | cons x p' =>
      rw [List.cons_append, countOcc,
        if_pos (List.isPrefixOf_iff_prefix.mpr (by
          rw [← List.cons_append]; exact List.prefix_append _ b)),
        countOcc_append_of_no_start _ p' b (fun k hk => by
          have : aligned ((x :: p').drop (k + 1)) (x :: p') = false :=
            properSuffAlignFree_spec hself (Nat.succ_pos k)
              (by simpa using Nat.succ_lt_succ hk)
          simpa using aligned_false_not_prefix this)]

theorem countOcc_other_append {p q b : List Char} (h : suffAlignFree p q = true) :
    countOcc q (p ++ b) = countOcc q b :=
  countOcc_append_of_no_start q p b (fun k hk =>
    aligned_false_not_prefix (suffAlignFree_spec h hk))

theorem replaceAll_nil (p r : List Char) : replaceAll p r [] = [] := by
  rw [replaceAll]

theorem replaceAll_cons_pos {p r : List Char} {c : Char} {rest : List Char}
    (hne : p ≠ []) (hp : p <+: c :: rest) :
    replaceAll p r (c :: rest) = r ++ replaceAll p r ((c :: rest).drop p.length) := by
  rw [replaceAll, dif_pos ⟨hne, List.isPrefixOf_iff_prefix.mpr hp⟩]

theorem replaceAll_cons_neg {p r : List Char} {c : Char} {rest : List Char}
    (hp : ¬ (p <+: c :: rest)) :
    replaceAll p r (c :: rest) = c :: replaceAll p r rest := by
  rw [replaceAll, dif_neg (fun hc => hp (List.isPrefixOf_iff_prefix.mp hc.2))]

/-- If a nonempty proper suffix of `q` is a prefix of the output of
`replaceAll p r`, it was already a prefix of the input (given that no such
suffix aligns with the replacement `r`). -/
theorem drop_prefix_replaceAll {p r q : List Char} (hne : p ≠ [])
    (hq : properSuffAlignFree q r = true) :
    ∀ (s : List Char) (j : Nat), 0 < j → j < q.length →
      (q.drop j) <+: replaceAll p r s → (q.drop j) <+: s
  | [], j, _, hj, hpre => by
      rw [replaceAll_nil] at hpre
      have : q.drop j = [] := List.prefix_nil.mp hpre
      have : q.length ≤ j := by
        have := congrArg List.length this
        simp only [List.length_drop, List.length_nil] at this
        omega
      omega
  | c :: rest, j, hj0, hj, hpre => by
      by_cases hp : p <+: c :: rest
      · rw [replaceAll_cons_pos hne hp] at hpre
        have halign : aligned (q.drop j) r = false :=
          properSuffAlignFree_spec hq hj0 hj
        rcases List.prefix_or_prefix_of_prefix hpre (List.prefix_append r _) with h' | h'
        · unfold aligned at halign
          rw [Bool.or_eq_false_iff] at halign
          exact absurd (List.isPrefixOf_iff_prefix.mpr h') (by simp [halign.1])
        · unfold aligned at halign
          rw [Bool.or_eq_false_iff] at halign
          exact absurd (List.isPrefixOf_iff_prefix.mpr h') (by simp [halign.2])
      · rw [replaceAll_cons_neg hp] at hpre
        have hqj : q.drop j = q.get ⟨j, hj⟩ :: q.drop (j + 1) := List.drop_eq_get_cons hj
        rw [hqj] at hpre ⊢
        rw [List.cons_prefix_cons] at hpre ⊢
        refine ⟨hpre.1, ?_⟩
        by_cases hj1 : j + 1 < q.length
        · exact drop_prefix_replaceAll hne hq rest (j + 1) (Nat.succ_pos j) hj1 hpre.2
        · have : q.drop (j + 1) = [] := List.drop_eq_nil_of_le (by omega)
          rw [this]
          exact List.nil_prefix

/-- `replaceAll` does not disturb a prefix of the input in which no
occurrence of the pattern starts. -/
theorem prefix_replaceAll_of_no_occ {p r : List Char} :
    ∀ (s x : List Char), x <+: s → (∀ j, j < x.length → ¬ (p <+: s.drop j)) →
      x <+: replaceAll p r s
  | s, [], _, _ => List.nil_prefix
  | [], x :: x', hpre, _ => absurd hpre (by simp)
  | c :: rest, d :: x', hpre, h => by
      rw [List.cons_prefix_cons] at hpre
      have hnp : ¬ (p <+: c :: rest) := by
        have := h 0 (by simp)
        simpa using this
      rw [replaceAll_cons_neg hnp, List.cons_prefix_cons]
      exact ⟨hpre.1, prefix_replaceAll_of_no_occ rest x' hpre.2
        (fun j hj hp => h (j + 1) (by simpa using Nat.succ_lt_succ hj) (by simpa using hp))⟩

/-- After `replaceAll p r`, no occurrence of `p` remains (main elimination
lemma). -/
theorem countOcc_replaceAll_self {p r : List Char} (h : okElim p r = true) :
    ∀ s, countOcc p (replaceAll p r s) = 0
  | [] => by rw [replaceAll_nil]; rfl
  | c :: rest => by
      unfold okElim at h
      simp only [Bool.and_eq_true, Bool.not_eq_true'] at h
      obtain ⟨⟨hne', hfr⟩, hfp⟩ := h
      have hne : p ≠ [] := by simpa using hne'
      by_cases hp : p <+: c :: rest
      · rw [replaceAll_cons_pos hne hp]
        rw [countOcc_append_of_no_start p r _ (fun k hk =>
          aligned_false_not_prefix (suffAlignFree_spec hfr hk))]
        exact countOcc_replaceAll_self (by
          unfold okElim
          simp only [Bool.and_eq_true, Bool.not_eq_true']
          exact ⟨⟨hne', hfr⟩, hfp⟩) _
      · rw [replaceAll_cons_neg hp, countOcc]
        rw [if_neg, countOcc_replaceAll_self (by
          unfold okElim
          simp only [Bool.and_eq_true, Bool.not_eq_true']
          exact ⟨⟨hne', hfr⟩, hfp⟩) rest]
        intro hpp
        have hpp' : p <+: c :: replaceAll p r rest := List.isPrefixOf_iff_prefix.mp hpp
        cases p with
        | nil => exact hne rfl
        | cons ph p' =>
            rw [List.cons_prefix_cons] at hpp'
            cases hp' : p' with
            | nil =>
                apply hp
                rw [hp', List.cons_prefix_cons]
                exact ⟨hpp'.1, List.nil_prefix⟩
            | cons e e' =>
                apply hp
                rw [List.cons_prefix_cons]
                refine ⟨hpp'.1, ?_⟩
                have hlen : 1 < (ph :: p').length := by
                  rw [hp']
                  simp only [List.length_cons]
                  omega
                have := drop_prefix_replaceAll hne hfp rest 1 Nat.one_pos hlen
                  (by simpa using hpp'.2)
                simpa using this
termination_by s => s.length
decreasing_by
  · have : 0 < p.length := List.length_pos.mpr hne
    simp only [List.length_drop, List.length_cons]
    omega
  · simp

/-- Replacing `p` by `r` preserves the occurrence count of an unrelated
pattern `q` (main preservation lemma). -/
theorem countOcc_replaceAll_other {p r q : List Char} (h : okPreserve p r q = true) :
    ∀ s, countOcc q (replaceAll p r s) = countOcc q s
  | [] => by rw [replaceAll_nil]
  | c :: rest => by
      have h' := h
      unfold okPreserve at h'
      simp only [Bool.and_eq_true, Bool.not_eq_true'] at h'
      obtain ⟨⟨⟨⟨⟨hpn, hqn⟩, hpq⟩, hqp⟩, hrq⟩, hqr⟩ := h'
      have hpne : p ≠ [] := by simpa using hpn
      have hqne : q ≠ [] := by simpa using hqn
      by_cases hp : p <+: c :: rest
      · obtain ⟨w, hw⟩ := id hp
        have hdrop : (c :: rest).drop p.length = w := by
          rw [← hw, List.drop_left]
        rw [replaceAll_cons_pos hpne hp, hdrop,
          countOcc_append_of_no_start q r _ (fun k hk =>
            aligned_false_not_prefix (suffAlignFree_spec hrq hk)),
          countOcc_replaceAll_other h w, ← hw,
          countOcc_append_of_no_start q p w (fun k hk =>
            aligned_false_not_prefix (suffAlignFree_spec hpq hk))]
      · rw [replaceAll_cons_neg hp, countOcc, countOcc,
          countOcc_replaceAll_other h rest]
        congr 1
        by_cases hq1 : q <+: c :: rest
        · rw [if_pos (List.isPrefixOf_iff_prefix.mpr hq1)]
          rw [if_pos]
          apply List.isPrefixOf_iff_prefix.mpr
          cases q with
          | nil => exact List.nil_prefix
          | cons qh q' =>
              rw [List.cons_prefix_cons] at hq1 ⊢
              refine ⟨hq1.1, ?_⟩
              obtain ⟨w, hw⟩ := hq1.2
              exact prefix_replaceAll_of_no_occ rest q' hq1.2 (fun j hj hpj => by
                have hrw : rest.drop j = q'.drop j ++ w := by
                  rw [← hw, List.drop_append_of_le_length (by omega)]
                rw [hrw] at hpj
                have halign : aligned ((qh :: q').drop (j + 1)) p = false :=
                  properSuffAlignFree_spec hqp (Nat.succ_pos j)
                    (by simp only [List.length_cons]; omega)
                exact aligned_false_not_prefix (by simpa using halign) hpj)
        · rw [if_neg (fun hc => hq1 (List.isPrefixOf_iff_prefix.mp hc))]
          rw [if_neg]
          intro hc
          apply hq1
          have hq2 : q <+: c :: replaceAll p r rest := List.isPrefixOf_iff_prefix.mp hc
          cases q with
          | nil => exact List.nil_prefix
          | cons qh q' =>
              rw [List.cons_prefix_cons] at hq2 ⊢
              refine ⟨hq2.1, ?_⟩
              by_cases hq'e : q' = []
              · rw [hq'e]
                exact List.nil_prefix
              · have hlen : 1 < (qh :: q').length := by
                  have := List.length_pos.mpr hq'e
                  simp only [List.length_cons]
                  omega
                have := drop_prefix_replaceAll hpne hqr rest 1 Nat.one_pos hlen
                  (by simpa using hq2.2)
                simpa using this
termination_by s => s.length
decreasing_by
  · have hlp : 0 < p.length := List.length_pos.mpr hpne
    have : w.length + p.length = rest.length + 1 := by
      have := congrArg List.length hw
      simp only [List.length_append, List.length_cons] at this
      omega
    simp only [List.length_cons]
    omega
  · simp

/-- Replacing `p` by `r` creates exactly one occurrence of `r` per occurrence
of `p` and keeps all pre-existing occurrences of `r` (main counting lemma). -/
theorem countOcc_replaceAll_count {p r : List Char} (h : okCount p r = true) :
    ∀ s, countOcc r (replaceAll p r s) = countOcc p s + countOcc r s
  | [] => by rw [replaceAll_nil]; rfl
  | c :: rest => by
      have h' := h
      unfold okCount at h'
      simp only [Bool.and_eq_true, Bool.not_eq_true'] at h'
      obtain ⟨⟨⟨⟨⟨hpn, hrn⟩, hpr⟩, hrp⟩, hpp⟩, hrr⟩ := h'
      have hpne : p ≠ [] := by simpa using hpn
      have hrne : r ≠ [] := by simpa using hrn
      by_cases hp : p <+: c :: rest
      · obtain ⟨w, hw⟩ := id hp
        have hdrop : (c :: rest).drop p.length = w := by
          rw [← hw, List.drop_left]
        rw [replaceAll_cons_pos hpne hp, hdrop,
          countOcc_self_append hrne hrr,
          countOcc_replaceAll_count h w, ← hw,
          countOcc_self_append hpne hpp,
          countOcc_append_of_no_start r p w (fun k hk =>
            aligned_false_not_prefix (suffAlignFree_spec hpr hk))]
        omega
      · rw [replaceAll_cons_neg hp, countOcc, countOcc, countOcc,
          countOcc_replaceAll_count h rest,
          if_neg (fun hc => hp (List.isPrefixOf_iff_prefix.mp hc))]
        have hind : (if r.isPrefixOf (c :: replaceAll p r rest) = true then 1 else 0)
            = (if r.isPrefixOf (c :: rest) = true then 1 else 0) := by
          by_cases hr1 : r <+: c :: rest
          · rw [if_pos (List.isPrefixOf_iff_prefix.mpr hr1), if_pos]
            apply List.isPrefixOf_iff_prefix.mpr
            cases r with
            | nil => exact List.nil_prefix
            | cons rh r' =>
                rw [List.cons_prefix_cons] at hr1 ⊢
                refine ⟨hr1.1, ?_⟩
                obtain ⟨w, hw⟩ := hr1.2
                exact prefix_replaceAll_of_no_occ rest r' hr1.2 (fun j hj hpj => by
                  have hrw : rest.drop j = r'.drop j ++ w := by
                    rw [← hw, List.drop_append_of_le_length (by omega)]
                  rw [hrw] at hpj
                  have halign : aligned ((rh :: r').drop (j + 1)) p = false :=
                    properSuffAlignFree_spec hrp (Nat.succ_pos j)
                      (by simp only [List.length_cons]; omega)
                  exact aligned_false_not_prefix (by simpa using halign) hpj)
          · rw [if_neg (fun hc => hr1 (List.isPrefixOf_iff_prefix.mp hc)), if_neg]
            intro hc
            apply hr1
            have hr2 : r <+: c :: replaceAll p r rest := List.isPrefixOf_iff_prefix.mp hc
            cases r with
            | nil => exact List.nil_prefix
            | cons rh r' =>
                rw [List.cons_prefix_cons] at hr2 ⊢
                refine ⟨hr2.1, ?_⟩
                by_cases hr'e : r' = []
                · rw [hr'e]
                  exact List.nil_prefix
                · have hlen : 1 < (rh :: r').length := by
                    have := List.length_pos.mpr hr'e
                    simp only [List.length_cons]
                    omega
                  have := drop_prefix_replaceAll hpne hrr rest 1 Nat.one_pos hlen
                    (by simpa using hr2.2)
                  simpa using this
        rw [hind]
        omega
termination_by s => s.length
decreasing_by
  · have hlp : 0 < p.length := List.length_pos.mpr hpne
    have : w.length + p.length = rest.length + 1 := by
      have := congrArg List.length hw
      simp only [List.length_append, List.length_cons] at this
      omega
    simp only [List.length_cons]
    omega
  · simp

theorem replaceAll_id_of_no_occ {p r : List Char} :
    ∀ {s : List Char}, countOcc p s = 0 → replaceAll p r s = s
  | [], _ => by rw [replaceAll_nil]
  | c :: rest, h => by
      rw [countOcc] at h
      have h1 : ¬ (p.isPrefixOf (c :: rest) = true) := by
        intro hc
        rw [if_pos hc] at h
        omega
      have h2 : countOcc p rest = 0 := by
        rw [if_neg h1] at h
        omega
      rw [replaceAll_cons_neg (fun hc => h1 (List.isPrefixOf_iff_prefix.mpr hc)),
        replaceAll_id_of_no_occ h2]

theorem applyPair_eq (t : List Char) (pr : List Char × List Char) :
    applyPair t pr = replaceAll pr.1 pr.2 t := by
  unfold applyPair
  split
  · rfl
  · next hc => rw [replaceAll_id_of_no_occ (by omega)]

theorem fold_preserves_count {q : List Char} :
    ∀ (L : List (List Char × List Char)) (t : List Char) (n : Nat),
      (∀ pr ∈ L, okPreserve pr.1 pr.2 q = true) → countOcc q t = n →
      countOcc q (L.foldl applyPair t) = n
  | [], _, _, _, h => h
  | pr :: L', t, n, hL, h => by
      rw [List.foldl_cons]
      exact fold_preserves_count L' _ n (fun e he => hL e (List.mem_cons_of_mem _ he))
        (by rw [applyPair_eq,
          countOcc_replaceAll_other (hL pr (List.mem_cons_self _ _)), h])

theorem countOcc_fold_zero {p r : List Char}
    (A B : List (List Char × List Char)) (t : List Char)
    (hsplit : entityTable = A ++ (p, r) :: B)
    (h1 : okElim p r = true)
    (h2 : ∀ pr ∈ B, okPreserve pr.1 pr.2 p = true) :
    countOcc p (fix_named_entities t) = 0 := by
  unfold fix_named_entities
  rw [hsplit, List.foldl_append, List.foldl_cons, applyPair_eq]
  exact fold_preserves_count B _ 0 h2 (countOcc_replaceAll_self h1 _)

theorem countOcc_fold_numeric {p r : List Char}
    (A B : List (List Char × List Char)) (t : List Char)
    (hsplit : entityTable = A ++ (p, r) :: B)
    (hA : ∀ pr ∈ A, okPreserve pr.1 pr.2 p = true ∧ okPreserve pr.1 pr.2 r = true)
    (h3 : okCount p r = true)
    (hB : ∀ pr ∈ B, okPreserve pr.1 pr.2 r = true) :
    countOcc r (fix_named_entities t) = countOcc p t + countOcc r t := by
  unfold fix_named_entities
  rw [hsplit, List.foldl_append, List.foldl_cons, applyPair_eq]
  have hp : countOcc p (A.foldl applyPair t) = countOcc p t :=
    fold_preserves_count A t _ (fun e he => (hA e he).1) rfl
  have hr : countOcc r (A.foldl applyPair t) = countOcc r t :=
    fold_preserves_count A t _ (fun e he => (hA e he).2) rfl
  exact fold_preserves_count B _ _ hB
    (by rw [countOcc_replaceAll_count h3, hp, hr])

/-- After `fix_named_entities`, every named entity of the table has zero
occurrences left. -/
theorem named_count_zero (t : List Char) :
    ∀ pr ∈ entityTable, countOcc pr.1 (fix_named_entities t) = 0 := by
  intro pr hm
  simp only [entityTable, List.mem_cons, List.not_mem_nil, or_false] at hm
  rcases hm with rfl | rfl | rfl | rfl | rfl | rfl | rfl | rfl | rfl | rfl | rfl | rfl | rfl
  · exact countOcc_fold_zero (entityTable.take 0) (entityTable.drop 1) t rfl
      (by decide) (by decide)
  · exact countOcc_fold_zero (entityTable.take 1) (entityTable.drop 2) t rfl
      (by decide) (by decide)
  · exact countOcc_fold_zero (entityTable.take 2) (entityTable.drop 3) t rfl
      (by decide) (by decide)
  · exact countOcc_fold_zero (entityTable.take 3) (entityTable.drop 4) t rfl
      (by decide) (by decide)
  · exact countOcc_fold_zero (entityTable.take 4) (entityTable.drop 5) t rfl
      (by decide) (by decide)
  · exact countOcc_fold_zero (entityTable.take 5) (entityTable.drop 6) t rfl
      (by decide) (by decide)
  · exact countOcc_fold_zero (entityTable.take 6) (entityTable.drop 7) t rfl
      (by decide) (by decide)
  · exact countOcc_fold_zero (entityTable.take 7) (entityTable.drop 8) t rfl
      (by decide) (by decide)
  · exact countOcc_fold_zero (entityTable.take 8) (entityTable.drop 9) t rfl
      (by decide) (by decide)
  · exact countOcc_fold_zero (entityTable.take 9) (entityTable.drop 10) t rfl
      (by decide) (by decide)
  · exact countOcc_fold_zero (entityTable.take 10) (entityTable.drop 11) t rfl
      (by decide) (by decide)
  · exact countOcc_fold_zero (entityTable.take 11) (entityTable.drop 12) t rfl
      (by decide) (by decide)
  · exact countOcc_fold_zero (entityTable.take 12) (entityTable.drop 13) t rfl
      (by decide) (by decide)

/-- Claim C5: for every input text, the output of `fix_named_entities`
contains zero occurrences of each named entity of the replacement table, and
the occurrence count of each numeric form in the output is the count of the
named form in the input plus the pre-existing count of the numeric form (the
source table has thirteen entries; the spec's "twelve" undercounts it, but
the claimed property holds for every entry). -/
theorem c5_entity_counts (t : List Char) :
    ∀ pr ∈ entityTable,
      countOcc pr.1 (fix_named_entities t) = 0 ∧
      countOcc pr.2 (fix_named_entities t) = countOcc pr.1 t + countOcc pr.2 t := by
  intro pr hm
  refine ⟨named_count_zero t pr hm, ?_⟩
  simp only [entityTable, List.mem_cons, List.not_mem_nil, or_false] at hm
  rcases hm with rfl | rfl | rfl | rfl | rfl | rfl | rfl | rfl | rfl | rfl | rfl | rfl | rfl
  · exact countOcc_fold_numeric (entityTable.take 0) (entityTable.drop 1) t rfl
      (by decide) (by decide) (by decide)
  · exact countOcc_fold_numeric (entityTable.take 1) (entityTable.drop 2) t rfl
      (by decide) (by decide) (by decide)
  · exact countOcc_fold_numeric (entityTable.take 2) (entityTable.drop 3) t rfl
      (by decide) (by decide) (by decide)
  · exact countOcc_fold_numeric (entityTable.take 3) (entityTable.drop 4) t rfl
      (by decide) (by decide) (by decide)
  · exact countOcc_fold_numeric (entityTable.take 4) (entityTable.drop 5) t rfl
      (by decide) (by decide) (by decide)
  · exact countOcc_fold_numeric (entityTable.take 5) (entityTable.drop 6) t rfl
      (by decide) (by decide) (by decide)
  · exact countOcc_fold_numeric (entityTable.take 6) (entityTable.drop 7) t rfl
      (by decide) (by decide) (by decide)
  · exact countOcc_fold_numeric (entityTable.take 7) (entityTable.drop 8) t rfl
      (by decide) (by decide) (by decide)
  · exact countOcc_fold_numeric (entityTable.take 8) (entityTable.drop 9) t rfl
      (by decide) (by decide) (by decide)
  · exact countOcc_fold_numeric (entityTable.take 9) (entityTable.drop 10) t rfl
      (by decide) (by decide) (by decide)
  · exact countOcc_fold_numeric (entityTable.take 10) (entityTable.drop 11) t rfl
      (by decide) (by decide) (by decide)
  · exact countOcc_fold_numeric (entityTable.take 11) (entityTable.drop 12) t rfl
      (by decide) (by decide) (by decide)
  · exact countOcc_fold_numeric (entityTable.take 12) (entityTable.drop 13) t rfl
      (by decide) (by decide) (by decide)

/-- Witness for claim C5 at the concrete input `"a&nbsp;b&#160;"` and the
first table entry. -/
theorem c5_entity_counts_witness :
    (("&nbsp;".toList, "&#160;".toList) ∈ entityTable) ∧
    (countOcc ("&nbsp;".toList) (fix_named_entities ("a&nbsp;b&#160;".toList)) = 0 ∧
     countOcc ("&#160;".toList) (fix_named_entities ("a&nbsp;b&#160;".toList)) =
       countOcc ("&nbsp;".toList) ("a&nbsp;b&#160;".toList) +
       countOcc ("&#160;".toList) ("a&nbsp;b&#160;".toList)) :=
  ⟨by decide, c5_entity_counts ("a&nbsp;b&#160;".toList)
    ("&nbsp;".toList, "&#160;".toList) (by decide)⟩

theorem fold_id_of_all_zero :
    ∀ (L : List (List Char × List Char)) (t : List Char),
      (∀ pr ∈ L, countOcc pr.1 t = 0) → L.foldl applyPair t = t
  | [], _, _ => rfl
  | pr :: L', t, h => by
      rw [List.foldl_cons]
      have h0 : applyPair t pr = t := by
        rw [applyPair_eq, replaceAll_id_of_no_occ (h pr (List.mem_cons_self _ _))]
      rw [h0]
      exact fold_id_of_all_zero L' t (fun e he => h e (List.mem_cons_of_mem _ he))

/-- Claim C9: `fix_named_entities` is idempotent, because after one pass no
named entity of the table occurs any more and each loop iteration leaves a
text without occurrences unchanged. -/
theorem c9_entity_fixer_idempotent (t : List Char) :
    fix_named_entities (fix_named_entities t) = fix_named_entities t := by
  show entityTable.foldl applyPair (fix_named_entities t) = fix_named_entities t
  exact fold_id_of_all_zero entityTable (fix_named_entities t) (named_count_zero t)

theorem digitChar_toNat {n : Nat} (h : n < 10) : (digitChar n).toNat = 48 + n := by
  interval_cases n <;> decide

theorem fromDecimal_append_digit (a : List Char) (c : Char) :
    fromDecimal (a ++ [c]) = 10 * fromDecimal a + (c.toNat - 48) := by
  unfold fromDecimal
  rw [List.foldl_append]
  rfl

theorem fromDecimal_toDecimalAux :
    ∀ (fuel n : Nat), n < fuel → fromDecimal (toDecimalAux fuel n) = n
  | 0, n, h => absurd h (Nat.not_lt_zero n)
  | fuel + 1, n, h => by
      rw [toDecimalAux]
      by_cases h10 : n < 10
      · rw [if_pos h10]
        have : [digitChar n] = [] ++ [digitChar n] := rfl
        rw [this, fromDecimal_append_digit, digitChar_toNat h10]
        unfold fromDecimal
        simp
      · rw [if_neg h10, fromDecimal_append_digit,
          fromDecimal_toDecimalAux fuel (n / 10) (by omega),
          digitChar_toNat (Nat.mod_lt n (by omega))]
        omega

theorem fromDecimal_toDecimal (n : Nat) : fromDecimal (toDecimal n) = n :=
  fromDecimal_toDecimalAux (n + 1) n (Nat.lt_succ_self n)

theorem toDecimal_inj {m n : Nat} (h : toDecimal m = toDecimal n) : m = n := by
  have := congrArg fromDecimal h
  rwa [fromDecimal_toDecimal, fromDecimal_toDecimal] at this

theorem toDecimal_ne_nil (n : Nat) : toDecimal n ≠ [] := by
  rw [toDecimal, toDecimalAux]
  by_cases h10 : n < 10
  · rw [if_pos h10]
    simp
  · rw [if_neg h10]
    simp

theorem img_ids_eq :
    ∀ l : List (List Char),
      (l.filterMap (fun n =>
        match imageMime (lowerStr (pathSuffix n)) with
        | some mt =>
            some ({ id := mungeId (pathStem n), href := "images/".toList ++ n,
                    mediaType := mt } : ManifestItem)
        | none => none)).map (fun it => it.id)
      = (l.filter (fun n => (imageMime (lowerStr (pathSuffix n))).isSome)).map
          (fun n => mungeId (pathStem n))
  | [] => rfl
  | n :: l' => by
      rw [List.filterMap_cons, List.filter_cons]
      cases hf : imageMime (lowerStr (pathSuffix n)) with
      | none => simpa [hf] using img_ids_eq l'
      | some mt =>
          simp [hf]
          exact img_ids_eq l'

theorem font_ids_eq :
    ∀ l : List (List Char),
      (l.filterMap (fun n =>
        match fontMime (lowerStr (pathSuffix n)) with
        | some mt =>
            some ({ id := mungeId (pathStem n), href := "fonts/".toList ++ n,
                    mediaType := mt } : ManifestItem)
        | none => none)).map (fun it => it.id)
      = (l.filter (fun n => (fontMime (lowerStr (pathSuffix n))).isSome)).map
          (fun n => mungeId (pathStem n))
  | [] => rfl
  | n :: l' => by
      rw [List.filterMap_cons, List.filter_cons]
      cases hf : fontMime (lowerStr (pathSuffix n)) with
      | none => simpa [hf] using font_ids_eq l'
      | some mt =>
          simp [hf]
          exact font_ids_eq l'

theorem manifestIds_decompose (xhtml css imgs fonts : List (List Char)) :
    manifestIds xhtml css imgs fonts
      = (List.range xhtml.length).map (fun i => "item".toList ++ toDecimal (i + 1))
        ++ (assetIds css imgs fonts ++ ["nav".toList]) := by
  unfold manifestIds buildManifest assetIds
  simp only [List.map_append, List.map_map, List.append_assoc,
    img_ids_eq imgs, font_ids_eq fonts]
  rfl

theorem itemIds_nodup (n : Nat) :
    ((List.range n).map (fun i => "item".toList ++ toDecimal (i + 1))).Nodup := by
  refine List.Nodup.map ?_ (List.nodup_range n)
  intro i j hij
  have := List.append_cancel_left hij
  have := toDecimal_inj this
  omega

/-- The claim that the generated manifest ids are unique for every input
file set is false: a stylesheet named `item1.css` yields the id `item1`,
colliding with the id of the first content file. -/
theorem c4_counterexample :
    ¬ (manifestIds ["chapter.xhtml".toList] ["item1.css".toList] [] []).Nodup := by
  decide

/-- Amended claim C4: the manifest ids are unique provided the asset-derived
ids (stylesheet stems, munged image stems, munged font stems) are pairwise
distinct, none of them is `nav`, and none of them is of the form `item<k>`
for a content-file index `k`.  The `item<N>` ids and the `nav` id are
pairwise distinct unconditionally. -/
theorem c4_amended (xhtml css imgs fonts : List (List Char))
    (h1 : (assetIds css imgs fonts).Nodup)
    (h2 : "nav".toList ∉ assetIds css imgs fonts)
    (h3 : ∀ a ∈ assetIds css imgs fonts, ∀ k, k < xhtml.length →
            a ≠ "item".toList ++ toDecimal (k + 1)) :
    (manifestIds xhtml css imgs fonts).Nodup := by
  rw [manifestIds_decompose]
  rw [List.nodup_append]
  refine ⟨itemIds_nodup xhtml.length, ?_, ?_⟩
  · rw [List.nodup_append]
    refine ⟨h1, List.nodup_singleton _, ?_⟩
    intro a ha hb
    rw [List.mem_singleton] at hb
    exact h2 (hb ▸ ha)
  · intro a ha hb
    obtain ⟨i, hi, rfl⟩ := List.mem_map.mp ha
    rw [List.mem_range] at hi
    rcases List.mem_append.mp hb with hb' | hb'
    · exact h3 _ hb' i hi rfl
    · rw [List.mem_singleton] at hb'
      have hlen := congrArg List.length hb'
      simp only [List.length_append] at hlen
      have hpos : 0 < (toDecimal (i + 1)).length :=
        List.length_pos.mpr (toDecimal_ne_nil (i + 1))
      have h4 : ("item".toList).length = 4 := rfl
      have h3' : ("nav".toList).length = 3 := rfl
      omega

/-- Witness for the amended claim C4 on a concrete project layout. -/
theorem c4_amended_witness :
    (manifestIds ["a.xhtml".toList, "b.xhtml".toList]
      ["style.css".toList, "fonts.css".toList]
      ["pic one.png".toList, "notes.txt".toList]
      ["font.ttf".toList]).Nodup :=
  c4_amended _ _ _ _ (by decide) (by decide) (by decide)

/-- The claim is false for a project that already contains a `mimetype` file
with a payload other than the literal: `create_epub` only creates the file
when absent and never fixes its content. -/
theorem c6_counterexample :
    ¬ archiveClaim [("mimetype", "bogus")] "<container/>" := by decide

theorem lookupFile_setFile_ne (fs : List (String × String)) (p q v : String)
    (h : q ≠ p) : lookupFile (setFile fs p v) q = lookupFile fs q := by
  induction fs with
  | nil =>
      have hne : ¬ ((p, v).1 = q) := fun hq => h (Eq.symm hq)
      simp [setFile, lookupFile, hne]
  | cons e rest ih =>
      rw [setFile]
      by_cases he : e.1 = p
      · rw [if_pos he, lookupFile, lookupFile, if_neg (fun hq => h (Eq.symm hq)),
          if_neg (fun hq => h (Eq.trans (Eq.symm hq) he))]
      · rw [if_neg he, lookupFile, lookupFile]
        by_cases hq : e.1 = q
        · rw [if_pos hq, if_pos hq]
        · rw [if_neg hq, if_neg hq, ih]

theorem lookupFile_append_right (fs : List (String × String)) (p : String)
    (h : lookupFile fs p = none) (tl : List (String × String)) :
    lookupFile (fs ++ tl) p = lookupFile tl p := by
  induction fs with
  | nil => rfl
  | cons e rest ih =>
      rw [lookupFile] at h
      rw [List.cons_append, lookupFile]
      by_cases he : e.1 = p
      · rw [if_pos he] at h
        exact absurd h (by simp)
      · rw [if_neg he]
        rw [if_neg he] at h
        exact ih h

theorem fsKeys_setFile (fs : List (String × String)) (p v : String) :
    fsKeys (setFile fs p v) = if p ∈ fsKeys fs then fsKeys fs else fsKeys fs ++ [p] := by
  induction fs with
  | nil => simp [setFile, fsKeys]
  | cons e rest ih =>
      unfold fsKeys at ih ⊢
      rw [setFile]
      by_cases he : e.1 = p
      · rw [if_pos he, List.map_cons, List.map_cons, he,
          if_pos (List.mem_cons_self _ _)]
      · rw [if_neg he, List.map_cons, List.map_cons, ih]
        by_cases hp : p ∈ rest.map (fun e => e.1)
        · rw [if_pos hp, if_pos (List.mem_cons_of_mem _ hp)]
        · rw [if_neg hp, if_neg (by
            rw [List.mem_cons]
            rintro (hc | hc)
            · exact he hc.symm
            · exact hp hc), List.cons_append]

theorem lookupFile_eq_none_iff (fs : List (String × String)) (p : String) :
    lookupFile fs p = none ↔ p ∉ fsKeys fs := by
  induction fs with
  | nil => simp [lookupFile, fsKeys]
  | cons e rest ih =>
      rw [lookupFile]
      unfold fsKeys
      rw [List.map_cons, List.mem_cons]
      by_cases he : e.1 = p
      · rw [if_pos he]
        simp [he]
      · rw [if_neg he]
        unfold fsKeys at ih
        rw [ih]
        constructor
        · rintro h (hc | hc)
          · exact he hc.symm
          · exact h hc
        · intro h hc
          exact h (Or.inr hc)

/-- Amended claim C6: when the project root has no `mimetype` file or
already has one with the literal payload, the archive's first entry is the
`mimetype` entry, stored, with the literal payload; and unconditionally
(given distinct file paths, a file-system invariant) every other file of the
bootstrapped project appears exactly once after it, compressed. -/
theorem c6_amended (fs : List (String × String)) (containerXml : String)
    (hkeys : (fsKeys fs).Nodup)
    (hmt : lookupFile fs "mimetype" = none ∨
           lookupFile fs "mimetype" = some mimetypeLiteral) :
    archiveClaim fs containerXml := by
  unfold archiveClaim create_epub
  set fs1 := if (lookupFile fs "mimetype").isSome then fs
             else fs ++ [("mimetype", mimetypeLiteral)] with hfs1
  have hlook1 : lookupFile fs1 "mimetype" = some mimetypeLiteral := by
    rw [hfs1]
    rcases hmt with h | h
    · rw [if_neg (by rw [h]; simp), lookupFile_append_right fs _ h]
      rfl
    · rw [if_pos (by rw [h]; simp)]
      exact h
  have hlook2 : lookupFile (setFile fs1 "META-INF/container.xml" containerXml)
      "mimetype" = some mimetypeLiteral := by
    rw [lookupFile_setFile_ne _ _ _ _ (by decide)]
    exact hlook1
  refine ⟨?_, ?_, ?_⟩
  · rw [List.head?_cons, hlook2]
    rfl
  · rw [List.tail_cons]
    have hkeys1 : (fsKeys fs1).Nodup := by
      rw [hfs1]
      rcases hmt with h | h
      · rw [if_neg (by rw [h]; simp)]
        unfold fsKeys
        rw [List.map_append]
        rw [List.nodup_append]
        refine ⟨hkeys, by simp, ?_⟩
        intro a ha hb
        simp only [List.map_cons, List.map_nil, List.mem_singleton] at hb
        subst hb
        exact (lookupFile_eq_none_iff fs "mimetype").mp h ha
      · rw [if_pos (by rw [h]; simp)]
        exact hkeys
    have hkeys2 : (fsKeys (setFile fs1 "META-INF/container.xml" containerXml)).Nodup := by
      rw [fsKeys_setFile]
      split
      · exact hkeys1
      · rw [List.nodup_append]
        refine ⟨hkeys1, by simp, ?_⟩
        intro a ha hb
        rw [List.mem_singleton] at hb
        subst hb
        next hnotin => exact hnotin ha
    have : (((setFile fs1 "META-INF/container.xml" containerXml).filter
        (fun e => e.1 ≠ "mimetype")).map (fun e => e.1)).Sublist
        (fsKeys (setFile fs1 "META-INF/container.xml" containerXml)) := by
      unfold fsKeys
      exact List.Sublist.map _ (List.filter_sublist _)
    have hsub : (((setFile fs1 "META-INF/container.xml" containerXml).filter
        (fun e => e.1 ≠ "mimetype")).map (fun e => e.1)).Nodup :=
      List.Nodup.sublist this hkeys2
    rw [List.map_map]
    exact hsub
  · rw [List.tail_cons]
    intro e he
    obtain ⟨x, _, rfl⟩ := List.mem_map.mp he
    rfl

/-- Witness for the amended claim C6 on a concrete project without a
pre-existing `mimetype` file. -/
theorem c6_amended_witness :
    archiveClaim [("OEBPS/chapter-one.xhtml", "<html/>"),
                  ("styles/style.css", "body")] "<container/>" :=
  c6_amended _ _ (by decide) (Or.inl (by decide))

/-- Structural induction for `Node` with a membership hypothesis for the
children. -/
theorem node_ind {P : Node → Prop} (ht : ∀ s, P (.text s))
    (he : ∀ nm attrs ch, (∀ c ∈ ch, P c) → P (.elem nm attrs ch)) :
    ∀ n, P n :=
  fun n =>
    @Node.rec (fun m => P m) (fun l => ∀ c ∈ l, P c)
      (fun s => ht s)
      (fun nm attrs ch ih => he nm attrs ch ih)
      (fun c hc => absurd hc (List.not_mem_nil c))
      (fun c cs ihc ihcs d hd => by
        rcases List.mem_cons.mp hd with h | h
        · exact h ▸ ihc
        · exact ihcs d h)
      n

theorem isLiNode_padQuiz (c : Node) : isLiNode (padQuiz c) = isLiNode c := by
  cases c with
  | text s => rfl
  | elem nm attrs ch =>
      rw [padQuiz]
      split <;> rfl

theorem padQuizL_filter_li :
    ∀ ch : List Node,
      ((padQuizL ch).filter isLiNode).length = (ch.filter isLiNode).length
  | [] => rfl
  | c :: cs => by
      rw [padQuizL, List.filter_cons, List.filter_cons, isLiNode_padQuiz]
      by_cases h : isLiNode c = true
      · rw [if_pos h, if_pos h]
        simp only [List.length_cons]
        rw [padQuizL_filter_li cs]
      · rw [if_neg h, if_neg h, padQuizL_filter_li cs]

theorem placeholders_all_li (n : Nat) :
    ∀ c ∈ placeholders n, isLiNode c = true := by
  intro c hc
  obtain ⟨i, _, rfl⟩ := List.mem_map.mp hc
  rfl

theorem placeholders_length (n : Nat) : (placeholders n).length = 4 - n := by
  unfold placeholders
  rw [List.length_map, List.length_range']

theorem filter_append_length {p : Node → Bool} (a b : List Node) :
    ((a ++ b).filter p).length = (a.filter p).length + (b.filter p).length := by
  rw [List.filter_append, List.length_append]

theorem padQuizL_mem :
    ∀ {ch : List Node} {c : Node}, c ∈ padQuizL ch → ∃ d ∈ ch, padQuiz d = c
  | [], _, hc => absurd hc (by rw [padQuizL]; exact List.not_mem_nil _)
  | e :: cs, c, hc => by
      rw [padQuizL] at hc
      rcases List.mem_cons.mp hc with h | h
      · exact ⟨e, List.mem_cons_self _ _, h.symm⟩
      · obtain ⟨d, hd, hdc⟩ := padQuizL_mem h
        exact ⟨d, List.mem_cons_of_mem _ hd, hdc⟩

theorem filter_all_length {p : Node → Bool} :
    ∀ l : List Node, (∀ c ∈ l, p c = true) → (l.filter p).length = l.length
  | [], _ => rfl
  | c :: cs, h => by
      rw [List.filter_cons, if_pos (h c (List.mem_cons_self _ _)), List.length_cons,
        List.length_cons, filter_all_length cs (fun d hd => h d (List.mem_cons_of_mem _ hd))]

theorem quizMin4L_append :
    ∀ a b : List Node, quizMin4L (a ++ b) = (quizMin4L a && quizMin4L b)
  | [], b => by rw [List.nil_append, quizMin4L, Bool.true_and]
  | c :: cs, b => by
      rw [List.cons_append, quizMin4L, quizMin4L, quizMin4L_append cs b,
        Bool.and_assoc]

theorem quizMin4L_all :
    ∀ ch : List Node, (∀ c ∈ ch, quizMin4 c = true) → quizMin4L ch = true
  | [], _ => rfl
  | c :: cs, h => by
      rw [quizMin4L, h c (List.mem_cons_self _ _),
        quizMin4L_all cs (fun d hd => h d (List.mem_cons_of_mem _ hd))]
      rfl

theorem placeholders_quizMin4 (n : Nat) :
    ∀ c ∈ placeholders n, quizMin4 c = true := by
  intro c hc
  obtain ⟨i, _, rfl⟩ := List.mem_map.mp hc
  rfl

/-- Claim C7: after `populate_quiz_options`, every quiz-options list has at
least four direct `li` children, and a quiz-options `ul` with `n` original
items gets exactly the placeholders `Placeholder option (n+1) … Placeholder
option 4` appended after its (recursively processed) original children — so
no existing item is removed and the order is preserved. -/
theorem c7_quiz_padding (doc : Node) :
    quizMin4 (padQuiz doc) = true ∧
    (∀ attrs ch, hasClassToken attrs "quiz-options" = true →
      padQuiz (Node.elem "ul" attrs ch)
        = Node.elem "ul" attrs
            (padQuizL ch ++ placeholders ((ch.filter isLiNode).length))) := by
  constructor
  · induction doc using node_ind with
    | ht s => rfl
    | he nm attrs ch ih =>
        rw [padQuiz]
        by_cases hq : nm = "ul" ∧ hasClassToken attrs "quiz-options" = true
        · rw [if_pos hq, quizMin4]
          have hcount : (((padQuizL ch ++
              placeholders ((ch.filter isLiNode).length)).filter isLiNode).length)
              = (ch.filter isLiNode).length +
                (4 - (ch.filter isLiNode).length) := by
            rw [filter_append_length, padQuizL_filter_li,
              filter_all_length _ (placeholders_all_li _),
              placeholders_length]
          have h4 : 4 ≤ ((padQuizL ch ++
              placeholders ((ch.filter isLiNode).length)).filter isLiNode).length ∨
              (ch.filter isLiNode).length ≥ 4 := by
            by_cases hlt : (ch.filter isLiNode).length < 4
            · left
              omega
            · right
              omega
          rw [quizMin4L_append,
            quizMin4L_all _ (fun c hc => by
              obtain ⟨d, hd, rfl⟩ := padQuizL_mem hc
              exact ih d hd),
            quizMin4L_all _ (placeholders_quizMin4 _)]
          rcases h4 with h | h
          · rw [decide_eq_true h]
            simp
          · rw [decide_eq_true (by omega : 4 ≤ ((padQuizL ch ++
              placeholders ((ch.filter isLiNode).length)).filter isLiNode).length)]
            simp
        · rw [if_neg hq, quizMin4,
            quizMin4L_all _ (fun c hc => by
              obtain ⟨d, hd, rfl⟩ := padQuizL_mem hc
              exact ih d hd)]
          have : (!(decide (nm = "ul") && hasClassToken attrs "quiz-options")) = true := by
            rw [Bool.not_eq_true']
            rw [Bool.and_eq_false_iff]
            by_cases hnm : nm = "ul"
            · right
              by_cases hcl : hasClassToken attrs "quiz-options" = true
              · exact absurd ⟨hnm, hcl⟩ hq
              · simpa using hcl
            · left
              simpa using hnm
          rw [this]
          rfl
  · intro attrs ch hcl
    rw [padQuiz, if_pos ⟨rfl, hcl⟩]

/-- Witness for claim C7: a two-item quiz-options list is padded with
`Placeholder option 3` and `Placeholder option 4`. -/
theorem c7_quiz_padding_witness :
    quizMin4 (padQuiz (Node.elem "ul" [("class", "quiz-options")]
      [Node.elem "li" [] [Node.text "A"], Node.elem "li" [] [Node.text "B"]])) = true ∧
    padQuiz (Node.elem "ul" [("class", "quiz-options")]
      [Node.elem "li" [] [Node.text "A"], Node.elem "li" [] [Node.text "B"]])
      = Node.elem "ul" [("class", "quiz-options")]
          (padQuizL [Node.elem "li" [] [Node.text "A"], Node.elem "li" [] [Node.text "B"]]
            ++ placeholders (([Node.elem "li" [] [Node.text "A"],
                Node.elem "li" [] [Node.text "B"]].filter isLiNode).length)) :=
  ⟨(c7_quiz_padding (Node.elem "ul" [("class", "quiz-options")]
      [Node.elem "li" [] [Node.text "A"], Node.elem "li" [] [Node.text "B"]])).1,
   (c7_quiz_padding (Node.text "")).2 [("class", "quiz-options")]
     [Node.elem "li" [] [Node.text "A"], Node.elem "li" [] [Node.text "B"]] rfl⟩

theorem mappingGet_of_no_key {m : List (String × String)} {s : String} :
    (∀ kv ∈ m, kv.1 ≠ s) → mappingGet m s = s := by
  induction m with
  | nil => intro _; rfl
  | cons e rest ih =>
      intro h
      rw [mappingGet, if_neg (h e (List.mem_cons_self _ _)),
        ih (fun kv hkv => h kv (List.mem_cons_of_mem _ hkv))]

theorem mappingGet_mem {m : List (String × String)} {s : String} :
    (∃ kv ∈ m, kv.1 = s) → (s, mappingGet m s) ∈ m := by
  induction m with
  | nil => rintro ⟨kv, hkv, _⟩; exact absurd hkv (List.not_mem_nil kv)
  | cons e rest ih =>
      rintro ⟨kv, hkv, hs⟩
      rw [mappingGet]
      by_cases he : e.1 = s
      · rw [if_pos he]
        have : e = (s, e.2) := by
          rw [← he]
        exact this ▸ List.mem_cons_self _ _
      · rw [if_neg he]
        rcases List.mem_cons.mp hkv with h | h
        · exact absurd (h ▸ hs) he
        · exact List.mem_cons_of_mem _ (ih ⟨kv, h, hs⟩)

theorem replaceDict_eq_map (m : List (String × String)) :
    ∀ entries : List (String × PyObj),
      replaceDict m entries = entries.map (fun e => (e.1, replace_in_obj m e.2))
  | [] => rfl
  | e :: rest => by rw [replaceDict, List.map_cons, replaceDict_eq_map m rest]

theorem replaceList_eq_map (m : List (String × String)) :
    ∀ items : List PyObj, replaceList m items = items.map (replace_in_obj m)
  | [] => rfl
  | x :: rest => by rw [replaceList, List.map_cons, replaceList_eq_map m rest]

/-- Claim C8: the reference mapper replaces a string leaf exactly when the
string equals a mapping key (in which case it becomes the mapped value); a
string equal only to a mapping value, or containing a key as a proper
substring, passes through unchanged, as do all non-string leaves, while
dicts and lists are traversed structurally with keys untouched. -/
theorem c8_reference_mapper (m : List (String × String)) :
    (∀ s : String, (∀ kv ∈ m, kv.1 ≠ s) → replace_in_obj m (.str s) = .str s) ∧
    (∀ s : String, (∃ kv ∈ m, kv.1 = s) →
      (s, mappingGet m s) ∈ m ∧
      replace_in_obj m (.str s) = .str (mappingGet m s)) ∧
    (∀ n : Int, replace_in_obj m (.int n) = .int n) ∧
    (∀ b : Bool, replace_in_obj m (.bool b) = .bool b) ∧
    (replace_in_obj m .none = .none) ∧
    (∀ entries, replace_in_obj m (.dict entries)
       = .dict (entries.map (fun e => (e.1, replace_in_obj m e.2)))) ∧
    (∀ items, replace_in_obj m (.list items)
       = .list (items.map (replace_in_obj m))) := by
  refine ⟨?_, ?_, fun n => rfl, fun b => rfl, rfl, ?_, ?_⟩
  · intro s h
    rw [replace_in_obj, mappingGet_of_no_key h]
  · intro s h
    exact ⟨mappingGet_mem h, rfl⟩
  · intro entries
    rw [replace_in_obj, replaceDict_eq_map]
  · intro items
    rw [replace_in_obj, replaceList_eq_map]

/-- Witness for claim C8: with the mapping `old.xhtml ↦ new.xhtml`, the
string `new.xhtml` (a value) and the string `x-old.xhtml` (containing the
key as a proper substring) are left unchanged, while `old.xhtml` itself is
replaced. -/
theorem c8_reference_mapper_witness :
    replace_in_obj [("old.xhtml", "new.xhtml")] (.str "new.xhtml")
      = .str "new.xhtml" ∧
    replace_in_obj [("old.xhtml", "new.xhtml")] (.str "x-old.xhtml")
      = .str "x-old.xhtml" ∧
    replace_in_obj [("old.xhtml", "new.xhtml")] (.str "old.xhtml")
      = .str (mappingGet [("old.xhtml", "new.xhtml")] "old.xhtml") :=
  ⟨(c8_reference_mapper _).1 _ (by decide),
   (c8_reference_mapper _).1 _ (by decide),
   ((c8_reference_mapper _).2.1 _ ⟨("old.xhtml", "new.xhtml"),
      List.mem_cons_self _ _, rfl⟩).2⟩

mutual
theorem replaceFirst_of_none (target : String) (f : Node → Node) :
    ∀ n : Node, findFirst target n = none → replaceFirst target f n = (n, false)
  | .text s, _ => rfl
  | .elem nm attrs ch, h => by
      rw [findFirst] at h
      rw [replaceFirst]
      by_cases ht : nm = target
      · rw [if_pos ht] at h
        exact absurd h (by simp)
      · rw [if_neg ht] at h
        rw [if_neg ht, replaceFirstL_of_none target f ch h]

theorem replaceFirstL_of_none (target : String) (f : Node → Node) :
    ∀ cs : List Node, findFirstL target cs = none →
      replaceFirstL target f cs = (cs, false)
  | [], _ => rfl
  | c :: cs, h => by
      rw [findFirstL] at h
      rw [replaceFirstL]
      cases hc : findFirst target c with
      | some m =>
          rw [hc] at h
          exact absurd h (by simp)
      | none =>
          rw [hc] at h
          rw [replaceFirst_of_none target f c hc, replaceFirstL_of_none target f cs h]
          simp
end

mutual
theorem replaceFirst_of_some (target : String) (f : Node → Node)
    (hf : ∀ a c, ∃ a' c', f (.elem target a c) = .elem target a' c') :
    ∀ (n m : Node), findFirst target n = some m →
      (replaceFirst target f n).2 = true ∧
      findFirst target (replaceFirst target f n).1 = some (f m)
  | .text _, m, h => absurd h (by rw [findFirst]; simp)
  | .elem nm attrs ch, m, h => by
      rw [findFirst] at h
      rw [replaceFirst]
      by_cases ht : nm = target
      · rw [if_pos ht] at h
        rw [if_pos ht]
        have hm : m = Node.elem nm attrs ch := by
          have := h
          simp only [Option.some_inj] at this
          exact this.symm
        refine ⟨rfl, ?_⟩
        subst ht
        obtain ⟨a', c', hfc⟩ := hf attrs ch
        rw [hm, hfc, findFirst, if_pos rfl, ← hfc]
      · rw [if_neg ht] at h
        rw [if_neg ht]
        obtain ⟨h2, h3⟩ := replaceFirstL_of_some target f hf ch m h
        exact ⟨h2, by rw [findFirst, if_neg ht]; exact h3⟩

theorem replaceFirstL_of_some (target : String) (f : Node → Node)
    (hf : ∀ a c, ∃ a' c', f (.elem target a c) = .elem target a' c') :
    ∀ (cs : List Node) (m : Node), findFirstL target cs = some m →
      (replaceFirstL target f cs).2 = true ∧
      findFirstL target (replaceFirstL target f cs).1 = some (f m)
  | [], m, h => absurd h (by rw [findFirstL]; simp)
  | c :: cs, m, h => by
      rw [findFirstL] at h
      rw [replaceFirstL]
      cases hc : findFirst target c with
      | some m' =>
          rw [hc] at h
          have hm : m' = m := by
            simp only [Option.some_inj] at h
            exact h
          obtain ⟨h2, h3⟩ := replaceFirst_of_some target f hf c m (hm ▸ hc)
          rw [h2]
          refine ⟨rfl, ?_⟩
          rw [if_pos rfl]
          rw [findFirstL, h3]
      | none =>
          rw [hc] at h
          rw [replaceFirst_of_none target f c hc]
          obtain ⟨h2, h3⟩ := replaceFirstL_of_some target f hf cs m h
          have hred : (if ((c, false).2 = true) then
                (((c, false).1 :: cs, true) : List Node × Bool)
              else (c :: (replaceFirstL target f cs).1, (replaceFirstL target f cs).2))
              = (c :: (replaceFirstL target f cs).1, (replaceFirstL target f cs).2) := by
            simp
          constructor
          · rw [hred]
            exact h2
          · rw [hred, findFirstL, hc]
            exact h3
end

mutual
theorem findFirst_shape (target : String) :
    ∀ {n m : Node}, findFirst target n = some m →
      ∃ a c, m = Node.elem target a c
  | .text _, m, h => absurd h (by rw [findFirst]; simp)
  | .elem nm attrs ch, m, h => by
      rw [findFirst] at h
      by_cases ht : nm = target
      · rw [if_pos ht] at h
        simp only [Option.some_inj] at h
        exact ⟨attrs, ch, by rw [← h, ht]⟩
      · rw [if_neg ht] at h
        exact findFirstL_shape target h

theorem findFirstL_shape (target : String) :
    ∀ {cs : List Node} {m : Node}, findFirstL target cs = some m →
      ∃ a c, m = Node.elem target a c
  | [], m, h => absurd h (by rw [findFirstL]; simp)
  | c :: cs, m, h => by
      rw [findFirstL] at h
      cases hc : findFirst target c with
      | some m' =>
          rw [hc] at h
          simp only [Option.some_inj] at h
          exact h ▸ findFirst_shape target hc
      | none =>
          rw [hc] at h
          exact findFirstL_shape target h
end

/-- The claim that after processing the head contains each required
stylesheet link exactly once is false: a head that already holds two
identical `style.css` links keeps both, since the code only appends missing
links and never removes duplicates. -/
theorem c3_counterexample :
    ¬ (headLinkCount
        (ensureStylesheets (Node.elem "html" []
          [Node.elem "head" []
            [newLink "../styles/style.css", newLink "../styles/style.css"]]))
        "../styles/style.css" = 1) := by decide

theorem linkHrefsL_append :
    ∀ a b : List Node, linkHrefsL (a ++ b) = linkHrefsL a ++ linkHrefsL b
  | [], b => by rw [List.nil_append, linkHrefsL, List.nil_append]
  | c :: cs, b => by
      rw [List.cons_append, linkHrefsL, linkHrefsL, linkHrefsL_append cs b,
        List.append_assoc]

theorem linkHrefsN_newLink (h : String) : linkHrefsN (newLink h) = [h] := rfl

theorem linkHrefsL_map_newLink :
    ∀ hs : List String, linkHrefsL (hs.map newLink) = hs
  | [] => rfl
  | h :: hs => by
      rw [List.map_cons, linkHrefsL, linkHrefsN_newLink, linkHrefsL_map_newLink hs]
      rfl

/-- Amended claim C3: for a document with a head, after the stylesheet step
the first head contains each required href at least once, and exactly once
provided it was present at most once beforehand; pre-existing links
(duplicates included) are never removed. -/
theorem c3_amended (doc hd : Node) (hfind : findFirst "head" doc = some hd)
    (href : String) (hmem : href ∈ requiredHrefs) :
    findFirst "head" (ensureStylesheets doc) = some (fixHead hd) ∧
    1 ≤ (linkHrefsN (fixHead hd)).count href ∧
    ((linkHrefsN hd).count href ≤ 1 → (linkHrefsN (fixHead hd)).count href = 1) := by
  have hf : ∀ a c, ∃ a' c', fixHead (.elem "head" a c) = .elem "head" a' c' :=
    fun a c => ⟨a, _, rfl⟩
  obtain ⟨a, c, rfl⟩ := findFirst_shape "head" hfind
  have hfound := (replaceFirst_of_some "head" fixHead hf doc _ hfind).2
  refine ⟨hfound, ?_⟩
  have hno : ¬ (("head" : String) = "link" ∧
      (attrGet a "href").isSome = true) := by
    rintro ⟨hh, _⟩
    exact absurd hh (by decide)
  have hself : linkHrefsN (Node.elem "head" a c) = linkHrefsL c := by
    rw [linkHrefsN, if_neg hno, List.nil_append]
  have hfix : linkHrefsN (fixHead (Node.elem "head" a c))
      = linkHrefsL c ++
        (requiredHrefs.filter (fun h => decide (h ∉ linkHrefsL c))) := by
    rw [fixHead, linkHrefsN, if_neg hno, List.nil_append, linkHrefsL_append,
      linkHrefsL_map_newLink]
  rw [hfix, hself, List.count_append]
  by_cases hin : href ∈ linkHrefsL c
  · have hzero : (requiredHrefs.filter
        (fun h => decide (h ∉ linkHrefsL c))).count href = 0 := by
      rw [List.count_eq_zero]
      intro hcmem
      have := List.of_mem_filter hcmem
      simp only [decide_eq_true_eq] at this
      exact this hin
    have hpos : 1 ≤ (linkHrefsL c).count href :=
      List.count_pos_iff.mpr hin
    exact ⟨by omega, fun hle => by omega⟩
  · have hone : (requiredHrefs.filter
        (fun h => decide (h ∉ linkHrefsL c))).count href = 1 :=
      List.count_eq_one_of_mem ((by decide : requiredHrefs.Nodup).filter _)
        (List.mem_filter.mpr ⟨hmem, by simpa using hin⟩)
    have hzero : (linkHrefsL c).count href = 0 :=
      List.count_eq_zero.mpr hin
    exact ⟨by omega, fun _ => by omega⟩

/-- Witness for the amended claim C3: a head holding only one `fonts.css`
link gains a single `style.css` link. -/
theorem c3_amended_witness :
    findFirst "head" (ensureStylesheets (Node.elem "html" []
        [Node.elem "head" [] [newLink "../styles/fonts.css"]]))
      = some (fixHead (Node.elem "head" [] [newLink "../styles/fonts.css"])) ∧
    1 ≤ (linkHrefsN (fixHead (Node.elem "head" []
        [newLink "../styles/fonts.css"]))).count "../styles/style.css" ∧
    ((linkHrefsN (Node.elem "head" []
        [newLink "../styles/fonts.css"])).count "../styles/style.css" ≤ 1 →
      (linkHrefsN (fixHead (Node.elem "head" []
        [newLink "../styles/fonts.css"]))).count "../styles/style.css" = 1) :=
  c3_amended (Node.elem "html" [] [Node.elem "head" [] [newLink "../styles/fonts.css"]])
    (Node.elem "head" [] [newLink "../styles/fonts.css"]) rfl
    "../styles/style.css" (by decide)

/-- Claim C10: `restructure_quiz_key` leaves the file untouched exactly
when the document has no body or the body has no direct `p`/`div` children;
otherwise it rewrites the document so that its body loses exactly those
direct blocks and gains one trailing ordered list whose items carry, in
document order, the stripped flattened text of each removed block. -/
theorem c10_restructure (doc : Node) :
    (findFirst "body" doc = none → restructure_quiz_key doc = none) ∧
    (∀ attrs ch, findFirst "body" doc = some (.elem "body" attrs ch) →
      ((ch.filter isPDiv) = [] → restructure_quiz_key doc = none) ∧
      ((ch.filter isPDiv) ≠ [] →
        restructure_quiz_key doc
          = some ((replaceFirst "body" restructureBody doc).1) ∧
        findFirst "body" ((replaceFirst "body" restructureBody doc).1)
          = some (.elem "body" attrs ((ch.filter (fun c => !(isPDiv c))) ++
              [Node.elem "ol" [] ((ch.filter isPDiv).map (fun par =>
                Node.elem "li" [] [Node.text (getTextStripped par)]))])))) := by
  constructor
  · intro h
    rw [restructure_quiz_key, h]
  · intro attrs ch hfind
    have hf : ∀ a c, ∃ a' c',
        restructureBody (.elem "body" a c) = .elem "body" a' c' :=
      fun a c => ⟨a, _, rfl⟩
    constructor
    · intro hempty
      rw [restructure_quiz_key, hfind]
      show (if (List.filter isPDiv ch).isEmpty = true then none
            else some (replaceFirst "body" restructureBody doc).1) = none
      rw [if_pos (List.isEmpty_iff.mpr hempty)]
    · intro hne
      constructor
      · rw [restructure_quiz_key, hfind]
        show (if (List.filter isPDiv ch).isEmpty = true then none
              else some (replaceFirst "body" restructureBody doc).1)
            = some (replaceFirst "body" restructureBody doc).1
        rw [if_neg (fun hc => hne (List.isEmpty_iff.mp hc))]
      · have := (replaceFirst_of_some "body" restructureBody hf doc _ hfind).2
        rw [this]
        rfl

/-- Witness for claim C10 on a concrete quiz-key body with two answer
blocks and one unrelated child. -/
theorem c10_restructure_witness :
    (([Node.elem "p" [] [Node.text " A1 "],
       Node.elem "div" [] [Node.text "A2"],
       Node.elem "ul" [] []].filter isPDiv) ≠ [] →
      restructure_quiz_key (Node.elem "html" [] [Node.elem "body" []
          [Node.elem "p" [] [Node.text " A1 "],
           Node.elem "div" [] [Node.text "A2"],
           Node.elem "ul" [] []]])
        = some ((replaceFirst "body" restructureBody
            (Node.elem "html" [] [Node.elem "body" []
              [Node.elem "p" [] [Node.text " A1 "],
               Node.elem "div" [] [Node.text "A2"],
               Node.elem "ul" [] []]])).1) ∧
      findFirst "body" ((replaceFirst "body" restructureBody
            (Node.elem "html" [] [Node.elem "body" []
              [Node.elem "p" [] [Node.text " A1 "],
               Node.elem "div" [] [Node.text "A2"],
               Node.elem "ul" [] []]])).1)
        = some (.elem "body" []
            (([Node.elem "p" [] [Node.text " A1 "],
               Node.elem "div" [] [Node.text "A2"],
               Node.elem "ul" [] []].filter (fun c => !(isPDiv c))) ++
              [Node.elem "ol" []
                (([Node.elem "p" [] [Node.text " A1 "],
                   Node.elem "div" [] [Node.text "A2"],
                   Node.elem "ul" [] []].filter isPDiv).map (fun par =>
                  Node.elem "li" [] [Node.text (getTextStripped par)]))]))) :=
  (c10_restructure (Node.elem "html" [] [Node.elem "body" []
      [Node.elem "p" [] [Node.text " A1 "],
       Node.elem "div" [] [Node.text "A2"],
       Node.elem "ul" [] []]])).2 [] _ rfl |>.2

theorem rising_nil : ∀ c : Node, isListNode c = false → (fixHrs c).2.1 = []
  | .text _, _ => rfl
  | .elem nm a ch, h => by
      have hnm : isListName nm = false := by simpa [isListNode] using h
      rw [fixHrs, if_neg (by simp [hnm])]

theorem after_nil_of_list : ∀ c : Node, isListNode c = true → (fixHrs c).2.2 = []
  | .elem nm a ch, h => by
      have hnm : isListName nm = true := by simpa [isListNode] using h
      rw [fixHrs, if_pos (by simp [hnm])]

theorem fixChildren_escape_nil :
    ∀ ch : List Node, (∀ c ∈ ch, isListNode c = false) →
      (fixChildren false ch).2 = []
  | [], _ => rfl
  | c :: cs, h => by
      rw [fixChildren, if_neg (by simp)]
      show (fixHrs c).2.1 ++ (fixChildren false cs).2 = []
      rw [rising_nil c (h c (List.mem_cons_self _ _)),
        fixChildren_escape_nil cs (fun d hd => h d (List.mem_cons_of_mem _ hd))]
      rfl

theorem after_nil_inList :
    ∀ c : Node, isListNode c = false → noBadWrappers true c = true →
      (fixHrs c).2.2 = []
  | .text _, _, _ => rfl
  | .elem nm a ch, hl, hb => by
      have hnm : isListName nm = false := by simpa [isListNode] using hl
      rw [fixHrs, if_neg (by simp [hnm])]
      show (fixChildren false ch).2 = []
      apply fixChildren_escape_nil
      rw [noBadWrappers] at hb
      simp only [Bool.and_eq_true] at hb
      have hall := hb.1
      rw [hnm] at hall
      simp only [Bool.not_false, Bool.and_true, Bool.true_and,
        Bool.not_eq_true', Bool.or_eq_true] at hall
      rcases hall with hfalse | hall
      · exact absurd hfalse (by simp)
      · intro c hc
        have := (List.all_eq_true.mp hall) c hc
        simp only [Bool.not_eq_true', Bool.or_eq_false_iff] at this
        exact this.1

theorem hrsVoidL_split {c : Node} {cs : List Node}
    (h : hrsVoidL (c :: cs) = true) : hrsVoid c = true ∧ hrsVoidL cs = true := by
  rw [hrsVoidL, Bool.and_eq_true] at h
  exact h

theorem noBadWrappersL_split {il : Bool} {c : Node} {cs : List Node}
    (h : noBadWrappersL il (c :: cs) = true) :
    noBadWrappers il c = true ∧ noBadWrappersL il cs = true := by
  rw [noBadWrappersL, Bool.and_eq_true] at h
  exact h

theorem hrsVoid_elem_split {nm : String} {a : List (String × String)}
    {ch : List Node} (h : hrsVoid (.elem nm a ch) = true) :
    (decide (nm = "hr") = false ∨ ch = []) ∧ hrsVoidL ch = true := by
  rw [hrsVoid, Bool.and_eq_true] at h
  refine ⟨?_, h.2⟩
  have := h.1
  rw [Bool.or_eq_true] at this
  rcases this with h' | h'
  · left
    simpa using h'
  · right
    exact List.isEmpty_iff.mp h'

theorem void_hr_shape : ∀ c : Node, isHrNode c = true → hrsVoid c = true →
    ∃ a, c = Node.elem "hr" a []
  | .text _, h, _ => absurd h (by simp [isHrNode])
  | .elem nm a ch, h, hv => by
      have hnm : nm = "hr" := by simpa [isHrNode] using h
      obtain ⟨hd, _⟩ := hrsVoid_elem_split hv
      rcases hd with hd | hd
      · rw [hnm] at hd
        simp at hd
      · exact ⟨a, by rw [hnm, hd]⟩

theorem fixHrs_voidHr (a : List (String × String)) :
    fixHrs (Node.elem "hr" a []) = (Node.elem "hr" a [], [], []) := rfl

mutual
theorem fixHrs_escape_void :
    ∀ n : Node, hrsVoid n = true →
      ∀ x, (x ∈ (fixHrs n).2.1 ∨ x ∈ (fixHrs n).2.2) → isVoidHr x = true
  | .text _, _, x, hx => by
      rcases hx with hx | hx <;> exact absurd hx (List.not_mem_nil x)
  | .elem nm a ch, h, x, hx => by
      have hL : hrsVoidL ch = true := (hrsVoid_elem_split h).2
      by_cases hl : isListName nm = true
      · rw [fixHrs, if_pos (by simp [hl])] at hx
        rcases hx with hx | hx
        · exact fixChildren_escape_void true ch hL x hx
        · exact absurd hx (List.not_mem_nil x)
      · rw [fixHrs, if_neg (by simp [Bool.not_eq_true] at hl; simp [hl])] at hx
        rcases hx with hx | hx
        · exact absurd hx (List.not_mem_nil x)
        · exact fixChildren_escape_void false ch hL x hx

theorem fixChildren_escape_void :
    ∀ (pil : Bool) (ch : List Node), hrsVoidL ch = true →
      ∀ x, x ∈ (fixChildren pil ch).2 → isVoidHr x = true
  | _, [], _, x, hx => absurd hx (List.not_mem_nil x)
  | pil, c :: cs, h, x, hx => by
      obtain ⟨hc, hcs⟩ := hrsVoidL_split h
      by_cases hext : (pil && isHrNode c) = true
      · rw [fixChildren, if_pos hext] at hx
        have hx' : x ∈ ((fixHrs c).1 :: ((fixHrs c).2.1 ++ (fixHrs c).2.2))
            ++ (fixChildren pil cs).2 := hx
        rcases List.mem_append.mp hx' with hx1 | hx1
        · rcases List.mem_cons.mp hx1 with hx2 | hx2
          · obtain ⟨ah, hah⟩ := void_hr_shape c
              (by rw [Bool.and_eq_true] at hext; exact hext.2) hc
            subst hah
            rw [fixHrs_voidHr] at hx2
            rw [hx2]
            rfl
          · rcases List.mem_append.mp hx2 with hx3 | hx3
            · exact fixHrs_escape_void c hc x (Or.inl hx3)
            · exact fixHrs_escape_void c hc x (Or.inr hx3)
        · exact fixChildren_escape_void pil cs hcs x hx1
      · rw [fixChildren, if_neg hext] at hx
        have hx' : x ∈ (fixHrs c).2.1 ++ (fixChildren pil cs).2 := hx
        rcases List.mem_append.mp hx' with hx1 | hx1
        · exact fixHrs_escape_void c hc x (Or.inl hx1)
        · exact fixChildren_escape_void pil cs hcs x hx1
end

theorem noHrUnderListL_of_all :
    ∀ {il : Bool} {ch : List Node},
      (∀ c ∈ ch, noHrUnderList il c = true) → noHrUnderListL il ch = true
  | _, [], _ => rfl
  | il, c :: cs, h => by
      rw [noHrUnderListL, h c (List.mem_cons_self _ _),
        noHrUnderListL_of_all (fun d hd => h d (List.mem_cons_of_mem _ hd))]
      rfl

theorem noHrUnderListL_append :
    ∀ (il : Bool) (a b : List Node),
      noHrUnderListL il (a ++ b) = (noHrUnderListL il a && noHrUnderListL il b)
  | il, [], b => by rw [List.nil_append, noHrUnderListL, Bool.true_and]
  | il, c :: cs, b => by
      rw [List.cons_append, noHrUnderListL, noHrUnderListL,
        noHrUnderListL_append il cs b, Bool.and_assoc]

theorem voidHr_clean : ∀ x : Node, isVoidHr x = true →
    noHrUnderList false x = true
  | .text _, h => absurd h (by simp [isVoidHr])
  | .elem nm a ch, h => by
      have hch : ch = [] := by
        rw [isVoidHr, Bool.and_eq_true] at h
        exact List.isEmpty_iff.mp h.2
      subst hch
      rw [noHrUnderList]
      simp [noHrUnderListL]

mutual
theorem fixHrs_clean :
    ∀ (n : Node) (il : Bool), hrsVoid n = true → noBadWrappers il n = true →
      (il && isHrNode n) = false → noHrUnderList il (fixHrs n).1 = true
  | .text _, _, _, _, _ => rfl
  | .elem nm a ch, il, hv, hb, hh => by
      have hvL : hrsVoidL ch = true := (hrsVoid_elem_split hv).2
      rw [noBadWrappers, Bool.and_eq_true] at hb
      obtain ⟨hbHead, hbL⟩ := hb
      have hh' : (il && decide (nm = "hr")) = false := hh
      by_cases hl : isListName nm = true
      · rw [fixHrs, if_pos (by simp [hl])]
        rw [noHrUnderList, hh', Bool.not_false, Bool.true_and]
        exact fixChildren_clean true ch (il || isListName nm)
          (fun _ => by simp [hl]) hvL hbL
          (fun _ hpf => absurd hpf (by simp))
      · have hl' : isListName nm = false := by simpa using hl
        rw [fixHrs, if_neg (by simp [hl'])]
        rw [noHrUnderList, hh', Bool.not_false, Bool.true_and]
        refine fixChildren_clean false ch (il || isListName nm)
          (fun hpf => absurd hpf (by simp)) hvL hbL ?_
        intro hil _ c hc
        rw [hl', Bool.or_false] at hil
        rw [hil, hl'] at hbHead
        simp only [Bool.not_false, Bool.and_true, Bool.true_and,
          Bool.not_true, Bool.false_or] at hbHead
        have := (List.all_eq_true.mp hbHead) c hc
        simp only [Bool.not_eq_true', Bool.or_eq_false_iff] at this
        exact ⟨this.2, this.1⟩

theorem fixChildren_clean :
    ∀ (pil : Bool) (ch : List Node) (il' : Bool),
      (pil = true → il' = true) → hrsVoidL ch = true →
      noBadWrappersL il' ch = true →
      (il' = true → pil = false → ∀ c ∈ ch, isHrNode c = false ∧ isListNode c = false) →
      noHrUnderListL il' (fixChildren pil ch).1 = true
  | _, [], _, _, _, _, _ => rfl
  | pil, c :: cs, il', hpi, hv, hb, hcl => by
      obtain ⟨hvc, hvcs⟩ := hrsVoidL_split hv
      obtain ⟨hbc, hbcs⟩ := noBadWrappersL_split hb
      have hclcs : il' = true → pil = false →
          ∀ d ∈ cs, isHrNode d = false ∧ isListNode d = false :=
        fun h1 h2 d hd => hcl h1 h2 d (List.mem_cons_of_mem _ hd)
      by_cases hext : (pil && isHrNode c) = true
      · rw [fixChildren, if_pos hext]
        show noHrUnderListL il' (fixChildren pil cs).1 = true
        exact fixChildren_clean pil cs il' hpi hvcs hbcs hclcs
      · rw [fixChildren, if_neg hext]
        show noHrUnderListL il'
          (((fixHrs c).1 :: (fixHrs c).2.2.reverse) ++ (fixChildren pil cs).1) = true
        rw [noHrUnderListL_append, Bool.and_eq_true, noHrUnderListL, Bool.and_eq_true]
        refine ⟨⟨?_, ?_⟩, fixChildren_clean pil cs il' hpi hvcs hbcs hclcs⟩
        · refine fixHrs_clean c il' hvc hbc ?_
          by_cases hil : il' = true
          · have hhr : isHrNode c = false := by
              by_cases hpil : pil = true
              · rw [hpil] at hext
                simpa using hext
              · exact (hcl hil (by simpa using hpil) c (List.mem_cons_self _ _)).1
            rw [hhr, Bool.and_false]
          · rw [(by simpa using hil : il' = false), Bool.false_and]
        · by_cases hil : il' = true
          · have hafter : (fixHrs c).2.2 = [] := by
              by_cases hlc : isListNode c = true
              · exact after_nil_of_list c hlc
              · refine after_nil_inList c (by simpa using hlc) ?_
                rwa [hil] at hbc
            rw [hafter]
            rfl
          · rw [(by simpa using hil : il' = false)]
            refine noHrUnderListL_of_all (fun x hx => ?_)
            rw [List.mem_reverse] at hx
            exact voidHr_clean x (fixHrs_escape_void c hvc x (Or.inr hx))
end

/-- The claim that after `fix_xhtml_file` no `hr` is a descendant of a
list element at any depth is false: an `hr` wrapped in a `div` inside an
`li` has a non-list parent, so the relocation loop never touches it and it
stays inside the list. -/
theorem c2_counterexample :
    ¬ (noHrUnderList false (fixHrs divWrappedHrDoc).1 = true) := by
  decide

/-- Amended claim C2: after the `hr`-relocation step, no `hr` element is a
descendant of a `ul`, `ol` or `li`, provided (a) `hr` elements are void
(guaranteed by the lxml tree builder), (b) the document root is the usual
parser root with non-list children, and (c) no non-list element inside a
list structure wraps a list element or an `hr` — exactly the discipline
under which every `hr` inside a list has a list parent and every relocation
anchor sits outside all lists.  Furthermore no extracted `hr` is left
pending at the root. -/
theorem c2_amended (doc : Node)
    (h1 : hrsVoid doc = true)
    (h2 : rootSane doc = true)
    (h3 : noBadWrappers false doc = true) :
    noHrUnderList false (fixHrs doc).1 = true ∧
    (fixHrs doc).2.1 = [] ∧ (fixHrs doc).2.2 = [] := by
  refine ⟨fixHrs_clean doc false h1 h3 (by rw [Bool.false_and]), ?_, ?_⟩
  · apply rising_nil
    cases doc with
    | text s => rfl
    | elem nm a ch =>
        rw [rootSane, Bool.and_eq_true] at h2
        have := h2.1
        simp only [Bool.not_eq_true'] at this
        simpa [isListNode] using this
  · cases doc with
    | text s => rfl
    | elem nm a ch =>
        rw [rootSane, Bool.and_eq_true] at h2
        have hnm : isListName nm = false := by
          have := h2.1
          simpa using this
        rw [fixHrs, if_neg (by simp [hnm])]
        show (fixChildren false ch).2 = []
        apply fixChildren_escape_nil
        intro c hc
        have := (List.all_eq_true.mp h2.2) c hc
        simpa using this

/-- Witness for the amended claim C2 at the spec's scenario A document. -/
theorem c2_amended_witness :
    noHrUnderList false (fixHrs scenarioADoc).1 = true ∧
    (fixHrs scenarioADoc).2.1 = [] ∧ (fixHrs scenarioADoc).2.2 = [] :=
  c2_amended scenarioADoc (by decide) (by decide) (by decide)

end PrepareEpub
